import Mathlib

/-!
# Verification of the CodingSim repository

Shallow embedding of the repository's request-guard library
(`src/app/lib/limiter.js`), code-execution gateway
(`src/app/api/run/route.js`), enhanced exercise-generation gateway
(`src/app/api/generate-questions/route.js`) and the browser workbench UI
(starter-code gating), together with proofs about them.

Modelling conventions:
* JavaScript strings are modelled as Lean `String` (sequences of Unicode
  scalar values).  Lengths count scalar values rather than UTF-16 code
  units, and lone surrogates are outside the model.
* JavaScript numbers are modelled with exact decimal semantics: a decimal
  literal is canonicalised to its exact canonical decimal string (the
  value `String(Number(x))` produces whenever no IEEE-754 rounding or
  exponent formatting kicks in; the repository's data stays in that
  range).
* Fallible operations return `Option`.
-/

/-! ## JavaScript string helpers -/

/-- The WhiteSpace / LineTerminator characters removed by JavaScript's
`String.prototype.trim`. -/
def isJsWhite (c : Char) : Bool :=
  c.toNat = 0x09 || c.toNat = 0x0A || c.toNat = 0x0B || c.toNat = 0x0C ||
  c.toNat = 0x0D || c.toNat = 0x20 || c.toNat = 0xA0 || c.toNat = 0x1680 ||
  (0x2000 ≤ c.toNat && c.toNat ≤ 0x200A) || c.toNat = 0x2028 ||
  c.toNat = 0x2029 || c.toNat = 0x202F || c.toNat = 0x205F ||
  c.toNat = 0x3000 || c.toNat = 0xFEFF

/-- `trim` on character lists: drop JS whitespace from both ends. -/
def jsTrimL (cs : List Char) : List Char :=
  ((cs.dropWhile isJsWhite).reverse.dropWhile isJsWhite).reverse

/-- Model of JavaScript `String.prototype.trim`. -/
def jsTrim (s : String) : String :=
  String.mk (jsTrimL s.data)

/-- Substring test on character lists (JavaScript `String.prototype.includes`). -/
def hasSubL (s pat : List Char) : Bool :=
  pat.isPrefixOf s ||
    match s with
    | [] => false
    | _ :: t => hasSubL t pat

/-- Model of JavaScript `String.prototype.includes`. -/
def hasSub (s pat : String) : Bool :=
  hasSubL s.data pat.data

/-- Model of JavaScript `String.prototype.toLowerCase` (ASCII range, which is
all the repository compares). -/
def jsToLower (s : String) : String :=
  String.mk (s.data.map Char.toLower)

theorem String.eq_of_data_eq {s t : String} (h : s.data = t.data) : s = t := by
  cases s; cases t; exact congrArg String.mk h

/-! ## Exact decimal number canonicalisation

Model of `String(Number(raw))` for strings `raw` matching the numeric
pattern `^-?\d+(\.\d+)?$` (and of the value of a JSON number literal),
under exact decimal semantics. -/

/-- A decomposed decimal numeral: sign, integer-part digits, fraction-part
digits (empty = no fractional part). -/
structure NumParts where
  neg : Bool
  ip : List Char
  fp : List Char
  deriving DecidableEq, Repr

/-- Render a decomposed numeral back to its character string. -/
def renderNum (p : NumParts) : List Char :=
  (if p.neg then ['-'] else []) ++ p.ip ++ (if p.fp = [] then [] else '.' :: p.fp)

/-- Remove trailing `'0'` characters. -/
def stripT (l : List Char) : List Char :=
  (l.reverse.dropWhile (· = '0')).reverse

/-- Canonicalise a digit string `ds` with a decimal point sitting after the
first `pp` digits (so the value is `±0.ds × 10^pp`): strip trailing and
leading zeros and re-render, mapping the zero value (including negative
zero) to `0`.  This is the exact-decimal model of how JavaScript prints a
number value. -/
def canonParts (neg : Bool) (ds : List Char) (pp : Int) : NumParts :=
  let ds1 := stripT ds
  let lead := (ds1.takeWhile (· = '0')).length
  let ds2 := ds1.dropWhile (· = '0')
  let pp2 := pp - lead
  if ds2 = [] then ⟨false, ['0'], []⟩
  else if pp2 ≤ 0 then ⟨neg, ['0'], List.replicate (-pp2).toNat '0' ++ ds2⟩
  else if (ds2.length : Int) ≤ pp2 then
    ⟨neg, ds2 ++ List.replicate (pp2 - ds2.length).toNat '0', []⟩
  else ⟨neg, ds2.take pp2.toNat, ds2.drop pp2.toNat⟩

/-- The numeric pattern `/^-?\d+(\.\d+)?$/` used by `normalizeOutput`,
returned as a decomposition of the match. -/
def numRe (cs : List Char) : Option NumParts :=
  let neg : Bool := cs.head? = some '-'
  let cs1 := if neg then cs.tail else cs
  let ip := cs1.takeWhile Char.isDigit
  let rest := cs1.dropWhile Char.isDigit
  if ip = [] then none
  else
    match rest with
    | [] => some ⟨neg, ip, []⟩
    | '.' :: r =>
      if r.takeWhile Char.isDigit = [] then none
      else if r.dropWhile Char.isDigit = [] then some ⟨neg, ip, r.takeWhile Char.isDigit⟩
      else none
    | _ => none

/-- Canonical-form invariant for a decomposed numeral: digits only, no
redundant leading zero in the integer part, no trailing zero in the
fraction part, and `0` itself is never negative. -/
def goodParts (p : NumParts) : Prop :=
  p.ip ≠ [] ∧ (∀ c ∈ p.ip, c.isDigit) ∧ (∀ c ∈ p.fp, c.isDigit) ∧
  (p.ip.head? = some '0' → p.ip = ['0']) ∧
  (p.fp ≠ [] → p.fp.getLast? ≠ some '0') ∧
  (p.ip = ['0'] → p.fp = [] → p.neg = false)

instance (p : NumParts) : Decidable (goodParts p) := by
  unfold goodParts; infer_instance

/-- Model of `String(Number(raw))` for a `raw` matching the numeric
pattern: exact decimal canonicalisation of the matched numeral. -/
def jsNumCanon (p : NumParts) : String :=
  String.mk (renderNum (canonParts p.neg (p.ip ++ p.fp) p.ip.length))

example : numRe "01".data = some ⟨false, ['0', '1'], []⟩ := by decide
example : jsNumCanon ⟨false, ['0', '1'], []⟩ = "1" := by decide
example : jsNumCanon ⟨true, ['0'], ['0']⟩ = "0" := by decide
example : jsNumCanon ⟨false, ['1'], ['5', '0']⟩ = "1.5" := by decide
example : jsNumCanon ⟨false, ['0', '0'], ['0', '1']⟩ = "0.01" := by decide

/-! ### Properties of the canonicalisation -/

theorem head?_dropWhile_ne {p : α → Bool} {l : List α} {a : α}
    (h : (l.dropWhile p).head? = some a) : p a = false := by
  have := List.head?_dropWhile_not p l
  rw [h] at this
  exact this

theorem dropWhile_eq_self_of_all {p : α → Bool} {l : List α}
    (h : ∀ a ∈ l, p a = false) : l.dropWhile p = l := by
  cases l with
  | nil => rfl
  | cons a t =>
    rw [List.dropWhile_cons_of_neg]
    simp [h a (by simp)]

theorem takeWhile_zeros_eq_replicate (l : List Char) :
    l.takeWhile (· = '0') = List.replicate (l.takeWhile (· = '0')).length '0' := by
  apply List.eq_replicate_of_mem
  intro b hb
  simpa using List.mem_takeWhile_imp hb

theorem stripT_append_replicate (l : List Char) :
    ∃ k, l = stripT l ++ List.replicate k '0' := by
  refine ⟨(l.reverse.takeWhile (· = '0')).length, ?_⟩
  conv_lhs => rw [← l.reverse_reverse, ← List.takeWhile_append_dropWhile (· = '0') l.reverse]
  rw [List.reverse_append, stripT]
  congr 1
  rw [takeWhile_zeros_eq_replicate, List.reverse_replicate, List.length_replicate]

theorem head?_take_pos (l : List α) (n : Nat) (h : 0 < n) :
    (l.take n).head? = l.head? := by
  cases l <;> cases n <;> simp_all

theorem getLast?_stripT (l : List Char) (h : stripT l ≠ []) :
    (stripT l).getLast? ≠ some '0' := by
  rw [stripT, List.getLast?_reverse]
  intro hc
  have := head?_dropWhile_ne hc
  simp at this

theorem stripT_eq_self (l : List Char) (h : l.getLast? ≠ some '0') :
    stripT l = l := by
  rw [stripT]
  cases hr : l.reverse with
  | nil => simpa using congrArg List.reverse hr
  | cons a t =>
    have ha : a ≠ '0' := by
      intro rfla
      apply h
      rw [← List.head?_reverse, hr, rfla]
      rfl
    rw [List.dropWhile_cons_of_neg (by simpa using ha), ← hr, l.reverse_reverse]

theorem mem_stripT {l : List Char} {a : Char} (h : a ∈ stripT l) : a ∈ l := by
  obtain ⟨k, hk⟩ := stripT_append_replicate l
  rw [hk]
  exact List.mem_append_left _ h

theorem isDigit_ne_dash {c : Char} (h : c.isDigit = true) : c ≠ '-' := by
  intro hc; subst hc; simp [Char.isDigit] at h

theorem isDigit_zero_char : ('0').isDigit = true := by decide

/-- The canonicalisation always produces a canonical numeral. -/
theorem goodParts_canonParts (neg : Bool) (ds : List Char) (pp : Int)
    (h : ∀ c ∈ ds, c.isDigit) : goodParts (canonParts neg ds pp) := by
  rw [canonParts]
  set ds1 := stripT ds with hds1
  set lead := (ds1.takeWhile (· = '0')).length with hlead
  set ds2 := ds1.dropWhile (· = '0') with hds2
  set pp2 := pp - lead with hpp2
  have hmem2 : ∀ c ∈ ds2, c.isDigit := by
    intro c hc
    exact h c (mem_stripT (List.dropWhile_sublist (· = '0') |>.mem hc))
  by_cases h2 : ds2 = []
  · simp only [h2, if_pos]
    exact ⟨by simp, by simp, by simp, by simp, by simp, fun _ _ => rfl⟩
  · have hhead : ds2.head? ≠ some '0' := by
      intro hc
      have := head?_dropWhile_ne hc
      simp at this
    have hd1ne : ds1 ≠ [] := by
      intro hc
      rw [hc] at hds2
      simp [hds2] at h2
    have hlast1 : ds1.getLast? ≠ some '0' := getLast?_stripT ds hd1ne
    have hlast2 : ds2.getLast? ≠ some '0' := by
      have hsplit : ds1.takeWhile (· = '0') ++ ds2 = ds1 :=
        List.takeWhile_append_dropWhile (· = '0') ds1
      rw [← hsplit, List.getLast?_append_of_ne_nil _ h2] at hlast1
      exact hlast1
    rw [if_neg h2]
    by_cases hle : pp2 ≤ 0
    · rw [if_pos hle]
      refine ⟨by simp, by simp, ?_, by simp, ?_, ?_⟩
      · intro c hc
        rcases List.mem_append.mp hc with hc | hc
        · rw [List.eq_of_mem_replicate hc]; decide
        · exact hmem2 c hc
      · intro _
        rw [List.getLast?_append_of_ne_nil _ h2]
        exact hlast2
      · intro _ hfp
        exact absurd (List.append_eq_nil.mp hfp).2 h2
    · rw [if_neg hle]
      by_cases hint : (ds2.length : Int) ≤ pp2
      · rw [if_pos hint]
        have hne : ds2 ++ List.replicate (pp2 - ds2.length).toNat '0' ≠ [] := by
          intro hc
          exact h2 (List.append_eq_nil.mp hc).1
        refine ⟨hne, ?_, by simp, ?_, by simp, ?_⟩
        · intro c hc
          rcases List.mem_append.mp hc with hc | hc
          · exact hmem2 c hc
          · rw [List.eq_of_mem_replicate hc]; decide
        · intro hc
          rw [List.head?_append_of_ne_nil _ h2] at hc
          exact absurd hc hhead
        · intro hc _
          have hc' : ds2 ++ List.replicate (pp2 - ds2.length).toNat '0' = ['0'] := hc
          have h0 : (ds2 ++ List.replicate (pp2 - ds2.length).toNat '0').head? = some '0' := by
            rw [hc']; rfl
          rw [List.head?_append_of_ne_nil _ h2] at h0
          exact absurd h0 hhead
      · rw [if_neg hint]
        have hpos : 0 < pp2.toNat := by omega
        have hlt : pp2.toNat < ds2.length := by omega
        have htne : ds2.take pp2.toNat ≠ [] := by
          rw [Ne, List.take_eq_nil_iff]
          push_neg
          exact ⟨by omega, h2⟩
        have hdne : ds2.drop pp2.toNat ≠ [] := by
          rw [Ne, List.drop_eq_nil_iff]
          omega
        refine ⟨htne, ?_, ?_, ?_, ?_, ?_⟩
        · intro c hc
          exact hmem2 c (List.take_subset _ _ hc)
        · intro c hc
          exact hmem2 c (List.drop_subset _ _ hc)
        · intro hc
          rw [head?_take_pos _ _ (by omega)] at hc
          exact absurd hc hhead
        · intro _
          rw [← List.take_append_drop pp2.toNat ds2, List.getLast?_append_of_ne_nil _ hdne]
            at hlast2
          exact hlast2
        · intro hc
          intro hdrop
          exact absurd hdrop hdne


/-- A canonical numeral is a fixed point of the canonicalisation. -/
theorem canonParts_of_good {p : NumParts} (h : goodParts p) :
    canonParts p.neg (p.ip ++ p.fp) p.ip.length = p := by
  obtain ⟨neg, ip, fp⟩ := p
  obtain ⟨hipne, hipd, hfpd, hip0, hfpl, hzero⟩ := h
  simp only at hipne hipd hfpd hip0 hfpl hzero ⊢
  have hiplen : 0 < ip.length := List.length_pos.mpr hipne
  rw [canonParts]
  by_cases hfp : fp = []
  · subst hfp
    simp only [List.append_nil]
    by_cases hip : ip = ['0']
    · subst hip
      have hneg : neg = false := hzero rfl rfl
      subst hneg
      rfl
    · have hhead : ip.head? ≠ some '0' := fun hc => hip (hip0 hc)
      obtain ⟨k, hk⟩ := stripT_append_replicate ip
      have hd1ne : stripT ip ≠ [] := by
        intro hc
        rw [hc, List.nil_append] at hk
        apply hhead
        rw [hk]
        cases k with
        | zero => exact absurd hk (by simpa [hk] using hipne)
        | succ n => rfl
      obtain ⟨c, ct, hct⟩ := List.exists_cons_of_ne_nil hd1ne
      have hcne : c ≠ '0' := by
        intro rfla
        apply hhead
        rw [hk, hct, rfla]
        rfl
      have htake : (stripT ip).takeWhile (· = '0') = [] := by
        rw [hct, List.takeWhile_cons_of_neg (by simpa using hcne)]
      have hdrop : (stripT ip).dropWhile (· = '0') = stripT ip := by
        rw [hct, List.dropWhile_cons_of_neg (by simpa using hcne)]
      have hlen : ip.length = (stripT ip).length + k := by
        have := congrArg List.length hk
        simpa using this
      rw [htake, hdrop]
      rw [if_neg hd1ne]
      rw [if_neg (by simp only [List.length_nil]; omega)]
      rw [if_pos (by simp only [List.length_nil]; omega)]
      have hcast : (((ip.length : Int) - (List.length ([] : List Char))
          - (stripT ip).length)).toNat = k := by
        simp only [List.length_nil]
        omega
      rw [hcast, ← hk]
  · have hlast : fp.getLast? ≠ some '0' := hfpl hfp
    have hstrip : stripT (ip ++ fp) = ip ++ fp := by
      apply stripT_eq_self
      rw [List.getLast?_append_of_ne_nil _ hfp]
      exact hlast
    rw [hstrip]
    have hfplen : 0 < fp.length := List.length_pos.mpr hfp
    by_cases hip : ip = ['0']
    · subst hip
      have htake : (['0'] ++ fp).takeWhile (· = '0')
          = '0' :: fp.takeWhile (· = '0') := by
        simp [List.takeWhile_cons_of_pos]
      have hdrop : (['0'] ++ fp).dropWhile (· = '0') = fp.dropWhile (· = '0') := by
        simp [List.dropWhile_cons_of_pos]
      rw [htake, hdrop]
      have hfp2ne : fp.dropWhile (· = '0') ≠ [] := by
        intro hc
        have hall := List.dropWhile_eq_nil_iff.mp hc
        rcases List.eq_nil_or_concat fp with hfpnil | ⟨L, b, hLb⟩
        · exact hfp hfpnil
        · apply hlast
          rw [hLb, List.concat_eq_append, List.getLast?_concat]
          have hb : b = '0' := by
            simpa using hall b (by rw [hLb]; simp [List.concat_eq_append])
          rw [hb]
      rw [if_neg hfp2ne]
      rw [if_pos (by simp only [List.length_cons, List.length_nil]; omega)]
      have hcast : (-(((['0'] : List Char).length : Int)
          - (('0' :: fp.takeWhile (· = '0')).length : Int))).toNat
          = (fp.takeWhile (· = '0')).length := by
        simp only [List.length_cons, List.length_nil]
        omega
      rw [hcast]
      rw [← takeWhile_zeros_eq_replicate fp]
      rw [List.takeWhile_append_dropWhile]
    · have hhead : ip.head? ≠ some '0' := fun hc => hip (hip0 hc)
      obtain ⟨c, ct, hct⟩ := List.exists_cons_of_ne_nil hipne
      have hcne : c ≠ '0' := by
        intro rfla
        apply hhead
        rw [hct, rfla]
        rfl
      have htake : (ip ++ fp).takeWhile (· = '0') = [] := by
        rw [hct, List.cons_append, List.takeWhile_cons_of_neg (by simpa using hcne)]
      have hdrop : (ip ++ fp).dropWhile (· = '0') = ip ++ fp := by
        rw [hct, List.cons_append, List.dropWhile_cons_of_neg (by simpa using hcne)]
      rw [htake, hdrop]
      rw [if_neg (by simp [hct])]
      rw [if_neg (by simp only [List.length_nil]; omega)]
      rw [if_neg (by simp only [List.length_nil, List.length_append]; omega)]
      have hcast : ((ip.length : Int) - (List.length ([] : List Char))).toNat
          = ip.length := by
        simp only [List.length_nil]
        omega
      rw [hcast, List.take_left, List.drop_left]

theorem takeWhile_digits_append (ip rest : List Char) (h : ∀ c ∈ ip, c.isDigit)
    (h2 : rest.head? = some '.' ∨ rest = []) :
    (ip ++ rest).takeWhile Char.isDigit = ip ∧
    (ip ++ rest).dropWhile Char.isDigit = rest := by
  constructor
  · rw [List.takeWhile_append_of_pos h]
    rcases h2 with h2 | h2
    · cases rest with
      | nil => simp at h2
      | cons a t =>
        rw [List.takeWhile_cons_of_neg, List.append_nil]
        simp only [List.head?_cons, Option.some.injEq] at h2
        simp [h2]
    · simp [h2]
  · rw [List.dropWhile_append_of_pos h]
    rcases h2 with h2 | h2
    · cases rest with
      | nil => simp at h2
      | cons a t =>
        rw [List.dropWhile_cons_of_neg]
        simp only [List.head?_cons, Option.some.injEq] at h2
        simp [h2]
    · rw [h2, List.dropWhile_nil]

/-- A canonical numeral's rendering matches the numeric pattern and
decomposes back to the same parts. -/
theorem numRe_renderNum {p : NumParts} (h : goodParts p) :
    numRe (renderNum p) = some p := by
  obtain ⟨neg, ip, fp⟩ := p
  obtain ⟨hipne, hipd, hfpd, -, -, -⟩ := h
  simp only at hipne hipd hfpd ⊢
  obtain ⟨c, ct, hct⟩ := List.exists_cons_of_ne_nil hipne
  have hcd : c.isDigit := hipd c (by rw [hct]; exact List.mem_cons_self c ct)
  have hcnd : (c = '-') = False := eq_false (isDigit_ne_dash hcd)
  set rest := (if fp = [] then [] else '.' :: fp) with hrest
  have hresth : rest.head? = some '.' ∨ rest = [] := by
    rw [hrest]
    by_cases hfp : fp = [] <;> simp [hfp]
  obtain ⟨htw, hdw⟩ := takeWhile_digits_append ip rest hipd hresth
  have hmatch : (match rest with
      | [] => some (⟨neg, ip, []⟩ : NumParts)
      | '.' :: r =>
        if r.takeWhile Char.isDigit = [] then none
        else if r.dropWhile Char.isDigit = [] then some ⟨neg, ip, r.takeWhile Char.isDigit⟩
        else none
      | _ => none) = some ⟨neg, ip, fp⟩ := by
    rw [hrest]
    by_cases hfp : fp = []
    · simp [hfp]
    · have hfptw : fp.takeWhile Char.isDigit = fp := List.takeWhile_eq_self_iff.mpr hfpd
      have hfpdw : fp.dropWhile Char.isDigit = [] := List.dropWhile_eq_nil_iff.mpr hfpd
      simp [hfp, hfptw, hfpdw]
  cases neg with
  | false =>
    have hr : renderNum ⟨false, ip, fp⟩ = ip ++ rest := by
      simp [renderNum, hrest]
    rw [hr, numRe]
    have hh : ((ip ++ rest).head? = some '-') = False := by
      rw [hct, List.cons_append, List.head?_cons]
      simp [hcnd]
    simp only [hh, decide_False, Bool.false_eq_true, if_false, htw, hdw, if_neg hipne]
    exact hmatch
  | true =>
    have hr : renderNum ⟨true, ip, fp⟩ = '-' :: (ip ++ rest) := by
      simp [renderNum, hrest]
    rw [hr, numRe]
    have hh : (('-' :: (ip ++ rest)).head? = some '-') = True := by simp
    simp only [hh, decide_True, if_true, List.tail_cons, htw, hdw, if_neg hipne]
    exact hmatch

theorem isDigit_toNat {c : Char} (h : c.isDigit = true) :
    48 ≤ c.toNat ∧ c.toNat ≤ 57 := by
  simp only [Char.isDigit, ge_iff_le, Bool.and_eq_true, decide_eq_true_eq] at h
  obtain ⟨h1, h2⟩ := h
  exact ⟨h1, h2⟩

theorem isJsWhite_eq_false_of_digit {c : Char} (h : c.isDigit = true) :
    isJsWhite c = false := by
  obtain ⟨h1, h2⟩ := isDigit_toNat h
  simp only [isJsWhite, Bool.or_eq_false_iff, Bool.and_eq_false_iff,
    decide_eq_false_iff_not, Decidable.not_not]
  omega

theorem isJsWhite_dash : isJsWhite '-' = false := by decide
theorem isJsWhite_dot : isJsWhite '.' = false := by decide

theorem jsTrimL_eq_self_of_all {l : List Char}
    (h : ∀ c ∈ l, isJsWhite c = false) : jsTrimL l = l := by
  rw [jsTrimL, dropWhile_eq_self_of_all h, dropWhile_eq_self_of_all, List.reverse_reverse]
  intro c hc
  exact h c (List.mem_reverse.mp hc)

theorem renderNum_chars {q : NumParts} (hip : ∀ c ∈ q.ip, c.isDigit)
    (hfp : ∀ c ∈ q.fp, c.isDigit) :
    ∀ ch ∈ renderNum q, ch = '-' ∨ ch = '.' ∨ ch.isDigit := by
  intro ch hch
  rw [renderNum] at hch
  rcases List.mem_append.mp hch with hc | hc
  · rcases List.mem_append.mp hc with hc | hc
    · left
      revert hc
      by_cases hn : q.neg <;> simp [hn]
    · right; right; exact hip ch hc
  · by_cases hf : q.fp = []
    · rw [if_pos hf] at hc
      simp at hc
    · rw [if_neg hf] at hc
      rcases List.mem_cons.mp hc with hc | hc
      · exact Or.inr (Or.inl hc)
      · right; right; exact hfp ch hc

theorem renderNum_head {q : NumParts} (hgood : goodParts q) :
    ∃ d, (renderNum q).head? = some d ∧ (d = '-' ∨ d.isDigit) := by
  obtain ⟨hipne, hipd, -, -, -, -⟩ := hgood
  obtain ⟨c, ct, hct⟩ := List.exists_cons_of_ne_nil hipne
  rw [renderNum]
  by_cases hn : q.neg
  · exact ⟨'-', by simp [hn], Or.inl rfl⟩
  · refine ⟨c, ?_, Or.inr (hipd c (by rw [hct]; exact List.mem_cons_self c ct))⟩
    simp only [hn, Bool.false_eq_true, if_false, List.nil_append, hct, List.cons_append,
      List.head?_cons]

theorem numRe_digits {cs : List Char} {p : NumParts} (h : numRe cs = some p) :
    p.ip ≠ [] ∧ (∀ c ∈ p.ip, c.isDigit) ∧ (∀ c ∈ p.fp, c.isDigit) := by
  rw [numRe] at h
  by_cases hip : ((if (decide (cs.head? = some '-')) = true then cs.tail else cs).takeWhile
      Char.isDigit) = []
  · rw [if_pos hip] at h
    exact absurd h (by simp)
  · rw [if_neg hip] at h
    split at h
    · rw [Option.some.injEq] at h
      subst h
      exact ⟨hip, fun c hc => List.mem_takeWhile_imp hc, by simp⟩
    · split at h
      · exact absurd h (by simp)
      · split at h
        · rw [Option.some.injEq] at h
          subst h
          exact ⟨hip, fun c hc => List.mem_takeWhile_imp hc,
            fun c hc => List.mem_takeWhile_imp hc⟩
        · exact absurd h (by simp)
    · exact absurd h (by simp)

/-! ## JSON value model

Model of the JSON values produced by `JSON.parse` and printed by
`JSON.stringify`.  Numbers are stored in their canonical printed form
(exact decimal semantics, see above).  Object keys keep insertion order
with later duplicate keys overwriting earlier values in place, as in
JavaScript (the special ordering of integer-like keys is not modelled). -/

inductive JVal where
  | null : JVal
  | bool (b : Bool) : JVal
  | num (c : String) : JVal
  | str (s : String) : JVal
  | arr (xs : List JVal) : JVal
  | obj (kvs : List (String × JVal)) : JVal

/-- Hexadecimal digit for code points (lower case, as `JSON.stringify`
emits). -/
def hexDig (n : Nat) : Char :=
  if n < 10 then Char.ofNat (48 + n) else Char.ofNat (87 + n)

/-- How `JSON.stringify` escapes a single character inside a string
literal. -/
def escChar (c : Char) : List Char :=
  if c = '"' then ['\\', '"']
  else if c = '\\' then ['\\', '\\']
  else if c = '\n' then ['\\', 'n']
  else if c = '\r' then ['\\', 'r']
  else if c = '\t' then ['\\', 't']
  else if c.toNat = 8 then ['\\', 'b']
  else if c.toNat = 12 then ['\\', 'f']
  else if c.toNat < 32 then ['\\', 'u', '0', '0', hexDig (c.toNat / 16), hexDig (c.toNat % 16)]
  else [c]

/-- Escaped body of a JSON string literal. -/
def escStr (cs : List Char) : List Char :=
  cs.flatMap escChar

mutual

/-- Model of `JSON.stringify` (compact form, no indentation), producing a
character list. -/
def printVal : JVal → List Char
  | .null => "null".data
  | .bool true => "true".data
  | .bool false => "false".data
  | .num c => c.data
  | .str s => '"' :: escStr s.data ++ ['"']
  | .arr xs => '[' :: printElems xs ++ [']']
  | .obj kvs => '{' :: printMembers kvs ++ ['}']

/-- Array elements, comma-separated. -/
def printElems : List JVal → List Char
  | [] => []
  | [v] => printVal v
  | v :: vs => printVal v ++ ',' :: printElems vs

/-- Object members, comma-separated, each `"key":value`. -/
def printMembers : List (String × JVal) → List Char
  | [] => []
  | [(k, v)] => '"' :: escStr k.data ++ '"' :: ':' :: printVal v
  | (k, v) :: kvs =>
    ('"' :: escStr k.data ++ '"' :: ':' :: printVal v) ++ ',' :: printMembers kvs

end

/-- Model of `JSON.stringify` as a string-valued function. -/
def jsonStringify (v : JVal) : String :=
  String.mk (printVal v)

/-! ### JSON parser (model of `JSON.parse`) -/

/-- The insignificant whitespace characters of JSON. -/
def isJsonWs (c : Char) : Bool :=
  c = ' ' || c = '\t' || c = '\n' || c = '\r'

/-- Skip insignificant whitespace. -/
def skipWs (cs : List Char) : List Char :=
  cs.dropWhile isJsonWs

/-- Value of a hexadecimal digit. -/
def hexVal (c : Char) : Option Nat :=
  if 48 ≤ c.toNat ∧ c.toNat ≤ 57 then some (c.toNat - 48)
  else if 97 ≤ c.toNat ∧ c.toNat ≤ 102 then some (c.toNat - 87)
  else if 65 ≤ c.toNat ∧ c.toNat ≤ 70 then some (c.toNat - 55)
  else none

/-- Four hexadecimal digits. -/
def parseHex4 : List Char → Option (Nat × List Char)
  | a :: b :: c :: d :: rest =>
    match hexVal a, hexVal b, hexVal c, hexVal d with
    | some x, some y, some z, some w => some (((x * 16 + y) * 16 + z) * 16 + w, rest)
    | _, _, _, _ => none
  | _ => none

/-- Body of a JSON string literal after the opening quote, up to and
consuming the closing quote.  `\uXXXX` escapes are decoded, combining
surrogate pairs; a lone surrogate escape is rejected (JavaScript would
accept it, but it is not a Unicode scalar value and lies outside this
model). -/
def parseStrBody : Nat → List Char → Option (List Char × List Char)
  | 0, _ => none
  | fuel + 1, cs =>
    match cs with
    | [] => none
    | c0 :: rest0 =>
      if c0 = '"' then some ([], rest0)
      else if c0 = '\\' then
      (match rest0 with
       | [] => none
       | e :: rest2 =>
         if e = '"' then (parseStrBody fuel rest2).map fun p => ('"' :: p.1, p.2)
         else if e = '\\' then (parseStrBody fuel rest2).map fun p => ('\\' :: p.1, p.2)
         else if e = '/' then (parseStrBody fuel rest2).map fun p => ('/' :: p.1, p.2)
         else if e = 'b' then (parseStrBody fuel rest2).map fun p => (Char.ofNat 8 :: p.1, p.2)
         else if e = 'f' then (parseStrBody fuel rest2).map fun p => (Char.ofNat 12 :: p.1, p.2)
         else if e = 'n' then (parseStrBody fuel rest2).map fun p => ('\n' :: p.1, p.2)
         else if e = 'r' then (parseStrBody fuel rest2).map fun p => ('\r' :: p.1, p.2)
         else if e = 't' then (parseStrBody fuel rest2).map fun p => ('\t' :: p.1, p.2)
         else if e = 'u' then
           (match parseHex4 rest2 with
           | none => none
           | some (n, rest3) =>
             if n < 0xD800 ∨ 0xDFFF < n then
               (parseStrBody fuel rest3).map fun p => (Char.ofNat n :: p.1, p.2)
             else if n ≤ 0xDBFF then
               (match rest3 with
                | '\\' :: 'u' :: rest4 =>
                  (match parseHex4 rest4 with
                   | none => none
                   | some (m, rest5) =>
                     if 0xDC00 ≤ m ∧ m ≤ 0xDFFF then
                       (parseStrBody fuel rest5).map fun p =>
                         (Char.ofNat (0x10000 + (n - 0xD800) * 0x400 + (m - 0xDC00)) :: p.1, p.2)
                     else none)
                | _ => none)
             else none)
         else none)
      else if c0.toNat < 32 then none
      else (parseStrBody fuel rest0).map fun p => (c0 :: p.1, p.2)

/-- Canonical string of a JSON number literal with the given parts and
exponent (exact decimal semantics). -/
def jsonNumCanon (neg : Bool) (ip fp : List Char) (e : Int) : String :=
  String.mk (renderNum (canonParts neg (ip ++ fp) ((ip.length : Int) + e)))

/-- Exponent part of a JSON number, after the `e`/`E`. -/
def parseExpPart (cs : List Char) : Option (Int × List Char) :=
  let sgn : Int := if cs.head? = some '-' then -1 else 1
  let cs1 := if cs.head? = some '-' ∨ cs.head? = some '+' then cs.tail else cs
  let ds := cs1.takeWhile Char.isDigit
  if ds = [] then none
  else some (sgn * (Nat.ofDigits 10 ((ds.map fun c => c.toNat - 48).reverse) : Int),
    cs1.dropWhile Char.isDigit)

/-- Fraction and exponent of a JSON number, after the integer part. -/
def parseNumExp (neg : Bool) (ip fp : List Char) (cs : List Char) :
    Option (String × List Char) :=
  match cs with
  | c :: cs1 =>
    if c = 'e' ∨ c = 'E' then
      (match parseExpPart cs1 with
       | none => none
       | some (e, rest) => some (jsonNumCanon neg ip fp e, rest))
    else some (jsonNumCanon neg ip fp 0, c :: cs1)
  | [] => some (jsonNumCanon neg ip fp 0, [])

/-- Fraction part dispatch of a JSON number. -/
def parseNumFrac (neg : Bool) (ip : List Char) (cs : List Char) :
    Option (String × List Char) :=
  match cs with
  | c :: cs1 =>
    if c = '.' then
      (let fp := cs1.takeWhile Char.isDigit
       if fp = [] then none
       else parseNumExp neg ip fp (cs1.dropWhile Char.isDigit))
    else parseNumExp neg ip [] (c :: cs1)
  | [] => parseNumExp neg ip [] []

/-- A JSON number literal (grammar `-?(0|[1-9][0-9]*)(\.[0-9]+)?([eE][+-]?[0-9]+)?`),
returned as its canonical string. -/
def parseNum (cs : List Char) : Option (String × List Char) :=
  let neg : Bool := cs.head? = some '-'
  let cs1 := if neg then cs.tail else cs
  match cs1 with
  | c :: _ =>
    if c = '0' then parseNumFrac neg ['0'] cs1.tail
    else if c.isDigit then
      parseNumFrac neg (cs1.takeWhile Char.isDigit) (cs1.dropWhile Char.isDigit)
    else none
  | [] => none

/-- Overwrite the value of `k` in place, or append. This is how a JavaScript
object collects duplicate keys: the later value wins, the earlier position
is kept. -/
def objUpsert (kvs : List (String × JVal)) (k : String) (v : JVal) :
    List (String × JVal) :=
  if kvs.any fun p => p.1 = k then
    kvs.map fun p => if p.1 = k then (k, v) else p
  else kvs ++ [(k, v)]

/-- Collapse duplicate keys of a member list in JavaScript assignment
order. -/
def dedupKeys (kvs : List (String × JVal)) : List (String × JVal) :=
  kvs.foldl (fun acc p => objUpsert acc p.1 p.2) []

/-- Expect the exact characters `pat` and produce `v` (used for the
literals `null`, `true`, `false`). -/
def expectLit (pat : List Char) (v : JVal) (cs : List Char) :
    Option (JVal × List Char) :=
  if pat.isPrefixOf cs then some (v, cs.drop pat.length) else none

mutual

/-- Model of the JSON value grammar: parse one value starting at `cs`
(leading whitespace allowed), return it and the unconsumed rest. -/
def parseVal : Nat → List Char → Option (JVal × List Char)
  | 0, _ => none
  | fuel + 1, cs =>
    match skipWs cs with
    | [] => none
    | c :: rest =>
      if c = 'n' then expectLit ['u', 'l', 'l'] .null rest
      else if c = 't' then expectLit ['r', 'u', 'e'] (.bool true) rest
      else if c = 'f' then expectLit ['a', 'l', 's', 'e'] (.bool false) rest
      else if c = '"' then
        (match parseStrBody (rest.length + 1) rest with
         | none => none
         | some (sChars, r) => some (.str (String.mk sChars), r))
      else if c = '[' then
        (match skipWs rest with
         | ']' :: r2 => some (.arr [], r2)
         | _ =>
           match parseElems fuel rest with
           | none => none
           | some (xs, r) => some (.arr xs, r))
      else if c = '{' then
        (match skipWs rest with
         | '}' :: r2 => some (.obj [], r2)
         | _ =>
           match parseMembers fuel rest with
           | none => none
           | some (ms, r) => some (.obj (dedupKeys ms), r))
      else if c = '-' ∨ c.isDigit then
        (match parseNum (c :: rest) with
         | none => none
         | some (numStr, r) => some (.num numStr, r))
      else none

/-- One-or-more array elements followed by `]`. -/
def parseElems : Nat → List Char → Option (List JVal × List Char)
  | 0, _ => none
  | fuel + 1, cs =>
    match parseVal fuel cs with
    | none => none
    | some (v, r) =>
      match skipWs r with
      | ',' :: r2 =>
        (match parseElems fuel r2 with
         | none => none
         | some (xs, r3) => some (v :: xs, r3))
      | ']' :: r2 => some ([v], r2)
      | _ => none

/-- One-or-more object members followed by `}`. -/
def parseMembers : Nat → List Char → Option (List (String × JVal) × List Char)
  | 0, _ => none
  | fuel + 1, cs =>
    match skipWs cs with
    | '"' :: rest =>
      (match parseStrBody (rest.length + 1) rest with
       | none => none
       | some (kChars, r) =>
         match skipWs r with
         | ':' :: r2 =>
           (match parseVal fuel r2 with
            | none => none
            | some (v, r3) =>
              match skipWs r3 with
              | ',' :: r4 =>
                (match parseMembers fuel r4 with
                 | none => none
                 | some (ms, r5) => some ((String.mk kChars, v) :: ms, r5))
              | '}' :: r4 => some ([(String.mk kChars, v)], r4)
              | _ => none)
         | _ => none)
    | _ => none

end

/-- Model of `JSON.parse`: parse a complete JSON document (the whole
string must be consumed up to trailing whitespace). -/
def jsonParse (s : String) : Option JVal :=
  match parseVal (2 * s.data.length + 2) s.data with
  | some (v, rest) => if skipWs rest = [] then some v else none
  | none => none

example : jsonParse "null" = some .null := rfl
example : jsonParse " [1, 2.50] " = some (.arr [.num "1", .num "2.5"]) := rfl
example : jsonParse "\x7b\"a\": 1, \"a\": 2\x7d" = some (.obj [("a", .num "2")]) := rfl
example : jsonParse "\x7b\"b\":\"x\\n\",\"a\":[true,null]\x7d"
    = some (.obj [("b", .str "x\n"), ("a", .arr [.bool true, .null])]) := rfl
example : jsonParse "01" = none := rfl
example : jsonParse "[1,]" = none := rfl
example : jsonParse "\"a\\u0041\"" = some (.str "aA") := rfl
example : jsonStringify (.obj [("b", .str "x\n"), ("a", .arr [.bool true, .null])])
    = "\x7b\"b\":\"x\\n\",\"a\":[true,null]\x7d" := rfl
example : jsonParse "1e2" = some (.num "100") := rfl
example : jsonParse "-0" = some (.num "0") := rfl

/-! ### Well-formedness of parsed values and printer/parser round trip -/

/-- A canonically printed number string. -/
def isCanonNum (c : String) : Bool :=
  match numRe c.data with
  | some p => decide (goodParts p)
  | none => false

/-- No duplicate keys. -/
def nodupKeys : List (String × JVal) → Bool
  | [] => true
  | (k, _) :: ms => !(ms.any fun p => p.1 = k) && nodupKeys ms

mutual

/-- Well-formedness: number strings are canonical and object keys are
distinct — exactly the invariants `JSON.parse` outputs satisfy. -/
def wfVal : JVal → Bool
  | .null => true
  | .bool _ => true
  | .num c => isCanonNum c
  | .str _ => true
  | .arr xs => wfElems xs
  | .obj kvs => nodupKeys kvs && wfMems kvs

def wfElems : List JVal → Bool
  | [] => true
  | v :: vs => wfVal v && wfElems vs

def wfMems : List (String × JVal) → Bool
  | [] => true
  | (_, v) :: ms => wfVal v && wfMems ms

end

mutual

/-- Fuel bound sufficient to parse the printed form of a value. -/
def bnd : JVal → Nat
  | .null => 1
  | .bool _ => 1
  | .num _ => 1
  | .str _ => 1
  | .arr [] => 1
  | .arr (x :: xs) => 1 + bndE (x :: xs)
  | .obj [] => 1
  | .obj (m :: ms) => 1 + bndM (m :: ms)

def bndE : List JVal → Nat
  | [] => 1
  | v :: vs => 1 + max (bnd v) (bndE vs)

def bndM : List (String × JVal) → Nat
  | [] => 1
  | (_, v) :: ms => 1 + max (bnd v) (bndM ms)

end

theorem skipWs_cons_not_ws {c : Char} (h : isJsonWs c = false) (t : List Char) :
    skipWs (c :: t) = c :: t := by
  simp [skipWs, List.dropWhile, h]

theorem skipWs_nil : skipWs [] = [] := rfl

theorem isJsonWs_digit {c : Char} (h : c.isDigit = true) : isJsonWs c = false := by
  obtain ⟨h1, h2⟩ := isDigit_toNat h
  have : c ≠ ' ' ∧ c ≠ '\t' ∧ c ≠ '\n' ∧ c ≠ '\r' := by
    refine ⟨?_, ?_, ?_, ?_⟩ <;> (intro hc; subst hc; exact absurd h1 (by decide))
  simp [isJsonWs, this.1, this.2.1, this.2.2.1, this.2.2.2]

/-! ### String-literal escape round trip -/

theorem hexVal_hexDig {n : Nat} (h : n < 16) : hexVal (hexDig n) = some n := by
  interval_cases n <;> decide

theorem escStr_length_ge (cs : List Char) : cs.length ≤ (escStr cs).length := by
  induction cs with
  | nil => simp [escStr]
  | cons c t ih =>
    have h1 : 1 ≤ (escChar c).length := by
      rw [escChar]
      repeat' split
      all_goals simp
    rw [escStr] at ih ⊢
    rw [List.flatMap_cons, List.length_append, List.length_cons]
    omega

theorem parseStrBody_escStr (cs : List Char) :
    ∀ fuel rest, (escStr cs).length + 1 ≤ fuel →
    parseStrBody fuel (escStr cs ++ '"' :: rest) = some (cs, rest) := by
  induction cs with
  | nil =>
    intro fuel rest hf
    match fuel, hf with
    | fuel + 1, _ => rfl
  | cons c t ih =>
    intro fuel rest hf
    have hesc : escStr (c :: t) = escChar c ++ escStr t := by
      rw [escStr, List.flatMap_cons, escStr]
    have hlen : 1 ≤ (escChar c).length := by
      rw [escChar]
      repeat' split
      all_goals simp
    rw [hesc] at hf ⊢
    rw [List.length_append] at hf
    match fuel, hf with
    | fuel + 1, hf =>
      have hft : (escStr t).length + 1 ≤ fuel := by omega
      have iht := ih fuel rest hft
      rw [escChar]
      by_cases h1 : c = '"'
      · subst h1
        rw [if_pos rfl]
        simp [parseStrBody, iht]
      · rw [if_neg h1]
        by_cases h2 : c = '\\'
        · subst h2
          rw [if_pos rfl]
          simp [parseStrBody, iht]
        · rw [if_neg h2]
          by_cases h3 : c = '\n'
          · subst h3
            rw [if_pos rfl]
            simp [parseStrBody, iht]
          · rw [if_neg h3]
            by_cases h4 : c = '\r'
            · subst h4
              rw [if_pos rfl]
              simp [parseStrBody, iht]
            · rw [if_neg h4]
              by_cases h5 : c = '\t'
              · subst h5
                rw [if_pos rfl]
                simp [parseStrBody, iht]
              · rw [if_neg h5]
                by_cases h6 : c.toNat = 8
                · rw [if_pos h6]
                  have h8c : Char.ofNat 8 = c := by rw [← h6, Char.ofNat_toNat]
                  simp [parseStrBody, iht]
                  exact h8c
                · rw [if_neg h6]
                  by_cases h7 : c.toNat = 12
                  · rw [if_pos h7]
                    have h12c : Char.ofNat 12 = c := by rw [← h7, Char.ofNat_toNat]
                    simp [parseStrBody, iht]
                    exact h12c
                  · rw [if_neg h7]
                    by_cases h8 : c.toNat < 32
                    · rw [if_pos h8]
                      have hq : c.toNat / 16 < 16 := by omega
                      have hr : c.toNat % 16 < 16 := by omega
                      have hval : c.toNat / 16 * 16 + c.toNat % 16 = c.toNat := by omega
                      have hlt : c.toNat < 0xD800 ∨ 0xDFFF < c.toNat := Or.inl (by omega)
                      simp [parseStrBody, parseHex4, hexVal_hexDig hq, hexVal_hexDig hr,
                        show hexVal '0' = some 0 from rfl, hval, hlt, iht, Char.ofNat_toNat]
                    · rw [if_neg h8]
                      simp [parseStrBody, h1, h2, h8, iht]

/-! ### Number-literal round trip and canonicity -/

/-- A following character that cannot extend a number literal. -/
def numSafe (rest : List Char) : Prop :=
  match rest with
  | [] => True
  | c :: _ => c.isDigit = false ∧ c ≠ '.' ∧ c ≠ 'e' ∧ c ≠ 'E'

theorem takeWhile_digits_append2 (l r : List Char) (h : ∀ c ∈ l, c.isDigit)
    (h2 : ∀ c, r.head? = some c → c.isDigit = false) :
    (l ++ r).takeWhile Char.isDigit = l ∧ (l ++ r).dropWhile Char.isDigit = r := by
  constructor
  · rw [List.takeWhile_append_of_pos h]
    cases r with
    | nil => simp
    | cons a t =>
      rw [List.takeWhile_cons_of_neg (by simp [h2 a rfl]), List.append_nil]
  · rw [List.dropWhile_append_of_pos h]
    cases r with
    | nil => rfl
    | cons a t =>
      rw [List.dropWhile_cons_of_neg (by simp [h2 a rfl])]

theorem jsonNumCanon_zero_exp {p : NumParts} (h : goodParts p) :
    jsonNumCanon p.neg p.ip p.fp 0 = String.mk (renderNum p) := by
  rw [jsonNumCanon]
  congr 1
  have : ((p.ip.length : Int) + 0) = (p.ip.length : Int) := by omega
  rw [this]
  rw [canonParts_of_good h]

theorem parseNumExp_rt (neg : Bool) (ip fp : List Char) (rest : List Char)
    (h : numSafe rest) :
    parseNumExp neg ip fp rest = some (jsonNumCanon neg ip fp 0, rest) := by
  cases rest with
  | nil => rfl
  | cons c t =>
    obtain ⟨-, -, he, hE⟩ := h
    rw [parseNumExp, if_neg]
    push_neg
    exact ⟨he, hE⟩

theorem parseNumFrac_rt (neg : Bool) (ip fp : List Char) (rest : List Char)
    (hfp : ∀ c ∈ fp, c.isDigit) (h : numSafe rest) :
    parseNumFrac neg ip ((if fp = [] then [] else '.' :: fp) ++ rest)
      = some (jsonNumCanon neg ip fp 0, rest) := by
  by_cases hfp0 : fp = []
  · subst hfp0
    rw [if_pos rfl, List.nil_append]
    cases rest with
    | nil => rw [parseNumFrac, parseNumExp_rt neg ip [] [] (by exact trivial)]
    | cons c t =>
      have h2 := h
      obtain ⟨hd, hdot, -, -⟩ := h2
      rw [parseNumFrac, if_neg hdot, parseNumExp_rt _ _ _ _ h]
  · rw [if_neg hfp0, List.cons_append]
    have hr : ∀ c, rest.head? = some c → c.isDigit = false := by
      intro c hc
      cases rest with
      | nil => simp at hc
      | cons a t =>
        obtain ⟨hd, -, -, -⟩ := h
        simp only [List.head?_cons, Option.some.injEq] at hc
        rw [← hc]
        exact hd
    obtain ⟨htw, hdw⟩ := takeWhile_digits_append2 fp rest hfp hr
    rw [parseNumFrac, if_pos rfl]
    simp only [htw, hdw, if_neg hfp0]
    exact parseNumExp_rt _ _ _ _ h

/-- Parsing the rendering of a canonical numeral returns exactly its
canonical string. -/
theorem parseNum_rt {p : NumParts} (h : goodParts p) (rest : List Char)
    (hrest : numSafe rest) :
    parseNum (renderNum p ++ rest) = some (String.mk (renderNum p), rest) := by
  have hfix := jsonNumCanon_zero_exp h
  obtain ⟨neg, ip, fp⟩ := p
  obtain ⟨hipne, hipd, hfpd, hip0, -, -⟩ := h
  simp only at hipne hipd hfpd hip0 hfix ⊢
  obtain ⟨c, ct, hct⟩ := List.exists_cons_of_ne_nil hipne
  have hcd : c.isDigit := hipd c (by rw [hct]; exact List.mem_cons_self c ct)
  have hcnd : (c = '-') = False := eq_false (isDigit_ne_dash hcd)
  set fpPart := (if fp = [] then [] else '.' :: fp) with hfpPart
  have hfph : ∀ d, (fpPart ++ rest).head? = some d → d.isDigit = false := by
    intro d hd
    rw [hfpPart] at hd
    by_cases hfp0 : fp = []
    · rw [if_pos hfp0, List.nil_append] at hd
      cases rest with
      | nil => simp at hd
      | cons a t =>
        obtain ⟨h1, -, -, -⟩ := hrest
        simp only [List.head?_cons, Option.some.injEq] at hd
        rw [← hd]; exact h1
    · rw [if_neg hfp0, List.cons_append, List.head?_cons, Option.some.injEq] at hd
      rw [← hd]; decide
  have hfrac := parseNumFrac_rt neg ip fp rest hfpd hrest
  cases hneg : neg with
  | false =>
    subst hneg
    have hr : renderNum ⟨false, ip, fp⟩ ++ rest = ip ++ (fpPart ++ rest) := by
      simp [renderNum, hfpPart]
    rw [hr, parseNum]
    have hh : ((ip ++ (fpPart ++ rest)).head? = some '-') = False := by
      rw [hct, List.cons_append, List.head?_cons]
      simp [hcnd]
    simp only [hh, decide_False, Bool.false_eq_true, if_false]
    split
    · next c2 tl2 heq =>
      rw [hct, List.cons_append] at heq
      injection heq with he1 he2
      subst he1
      by_cases hc0 : c = '0'
      · have hip00 : ip = ['0'] := hip0 (by rw [hct, hc0]; rfl)
        have hctnil : ct = [] := by
          rw [hip00] at hct
          injection hct with g1 g2
          exact g2.symm
        rw [if_pos hc0, hct, List.cons_append, List.tail_cons, hctnil, List.nil_append]
        rw [hip00] at hfrac hfix
        rw [hfpPart, hfrac, hfix, hc0]
      · rw [if_neg hc0, if_pos hcd]
        obtain ⟨htw, hdw⟩ := takeWhile_digits_append2 ip (fpPart ++ rest) hipd hfph
        rw [htw, hdw, hfpPart, hfrac, hfix]
    · next heq =>
      rw [hct, List.cons_append] at heq
      exact absurd heq (by simp)
  | true =>
    subst hneg
    have hr : renderNum ⟨true, ip, fp⟩ ++ rest = '-' :: (ip ++ (fpPart ++ rest)) := by
      simp [renderNum, hfpPart]
    rw [hr, parseNum]
    have hh : (('-' :: (ip ++ (fpPart ++ rest))).head? = some '-') = True := by simp
    simp only [hh, decide_True, if_true, List.tail_cons]
    split
    · next c2 tl2 heq =>
      rw [hct, List.cons_append] at heq
      injection heq with he1 he2
      subst he1
      by_cases hc0 : c = '0'
      · have hip00 : ip = ['0'] := hip0 (by rw [hct, hc0]; rfl)
        have hctnil : ct = [] := by
          rw [hip00] at hct
          injection hct with g1 g2
          exact g2.symm
        rw [if_pos hc0, hct, List.cons_append, List.tail_cons, hctnil, List.nil_append]
        rw [hip00] at hfrac hfix
        rw [hfpPart, hfrac, hfix, hc0]
      · rw [if_neg hc0, if_pos hcd]
        obtain ⟨htw, hdw⟩ := takeWhile_digits_append2 ip (fpPart ++ rest) hipd hfph
        rw [htw, hdw, hfpPart, hfrac, hfix]
    · next heq =>
      rw [hct, List.cons_append] at heq
      exact absurd heq (by simp)

theorem isCanonNum_jsonNumCanon (neg : Bool) (ip fp : List Char) (e : Int)
    (h1 : ∀ c ∈ ip, c.isDigit) (h2 : ∀ c ∈ fp, c.isDigit) :
    isCanonNum (jsonNumCanon neg ip fp e) = true := by
  have hgood : goodParts (canonParts neg (ip ++ fp) ((ip.length : Int) + e)) := by
    apply goodParts_canonParts
    intro c hc
    rcases List.mem_append.mp hc with h | h
    · exact h1 c h
    · exact h2 c h
  rw [jsonNumCanon, isCanonNum]
  have hdata : (String.mk (renderNum (canonParts neg (ip ++ fp) ((ip.length : Int) + e)))).data
      = renderNum (canonParts neg (ip ++ fp) ((ip.length : Int) + e)) := rfl
  rw [hdata, numRe_renderNum hgood]
  simpa using hgood

theorem parseNumExp_wf {neg : Bool} {ip fp cs : List Char} {c : String} {r : List Char}
    (h1 : ∀ x ∈ ip, x.isDigit) (h2 : ∀ x ∈ fp, x.isDigit)
    (h : parseNumExp neg ip fp cs = some (c, r)) : isCanonNum c = true := by
  cases cs with
  | nil =>
    simp only [parseNumExp] at h
    rw [Option.some.injEq, Prod.mk.injEq] at h
    rw [← h.1]
    exact isCanonNum_jsonNumCanon neg ip fp 0 h1 h2
  | cons c0 t =>
    simp only [parseNumExp] at h
    split at h
    · split at h
      · exact Option.noConfusion h
      · rw [Option.some.injEq, Prod.mk.injEq] at h
        rw [← h.1]
        exact isCanonNum_jsonNumCanon neg ip fp _ h1 h2
    · rw [Option.some.injEq, Prod.mk.injEq] at h
      rw [← h.1]
      exact isCanonNum_jsonNumCanon neg ip fp 0 h1 h2

theorem parseNumFrac_wf {neg : Bool} {ip cs : List Char} {c : String} {r : List Char}
    (h1 : ∀ x ∈ ip, x.isDigit)
    (h : parseNumFrac neg ip cs = some (c, r)) : isCanonNum c = true := by
  cases cs with
  | nil =>
    simp only [parseNumFrac] at h
    exact parseNumExp_wf h1 (by simp) h
  | cons c0 t =>
    simp only [parseNumFrac] at h
    split at h
    · split at h
      · exact Option.noConfusion h
      · exact parseNumExp_wf h1 (fun x hx => List.mem_takeWhile_imp hx) h
    · exact parseNumExp_wf h1 (by simp) h

theorem parseNum_wf {cs : List Char} {c : String} {r : List Char}
    (h : parseNum cs = some (c, r)) : isCanonNum c = true := by
  rw [parseNum] at h
  split at h
  · split at h
    · refine parseNumFrac_wf ?_ h
      intro x hx
      simp only [List.mem_singleton] at hx
      subst hx
      decide
    · split at h
      · exact parseNumFrac_wf (fun x hx => List.mem_takeWhile_imp hx) h
      · exact Option.noConfusion h
  · exact Option.noConfusion h

/-! ### Round trip: printed values re-parse to themselves -/

theorem numRe_sound {cs : List Char} {p : NumParts} (h : numRe cs = some p) :
    cs = renderNum p := by
  rw [numRe] at h
  set neg : Bool := decide (cs.head? = some '-') with hneg
  set cs1 := if neg = true then cs.tail else cs with hcs1
  have hcs : cs = (if neg = true then ['-'] else []) ++ cs1 := by
    rw [hcs1]
    by_cases hn : neg = true
    · simp only [hn, if_true]
      rw [hneg] at hn
      simp only [decide_eq_true_eq] at hn
      cases cs with
      | nil => simp at hn
      | cons a t =>
        simp only [List.head?_cons, Option.some.injEq] at hn
        simp [hn]
    · simp [hn]
  by_cases hip : cs1.takeWhile Char.isDigit = []
  · rw [if_pos hip] at h
    exact Option.noConfusion h
  · rw [if_neg hip] at h
    split at h
    · next heq =>
      rw [Option.some.injEq] at h
      subst h
      have hcs1eq : cs1.takeWhile Char.isDigit = cs1 := by
        conv_rhs => rw [← List.takeWhile_append_dropWhile Char.isDigit cs1, heq,
          List.append_nil]
      have hrn : renderNum ⟨neg, cs1.takeWhile Char.isDigit, []⟩
          = (if neg = true then ['-'] else []) ++ cs1.takeWhile Char.isDigit := by
        simp [renderNum]
      rw [hrn, hcs1eq]
      exact hcs
    · next r heq =>
      split at h
      · exact Option.noConfusion h
      · split at h
        · next hfpne hdw =>
          rw [Option.some.injEq] at h
          subst h
          have hr : r.takeWhile Char.isDigit = r := by
            conv_rhs => rw [← List.takeWhile_append_dropWhile Char.isDigit r, hdw,
              List.append_nil]
          have hrn : renderNum ⟨neg, cs1.takeWhile Char.isDigit, r.takeWhile Char.isDigit⟩
              = (if neg = true then ['-'] else []) ++
                (cs1.takeWhile Char.isDigit ++ '.' :: r.takeWhile Char.isDigit) := by
            rw [renderNum]
            simp only [if_neg (show ¬(r.takeWhile Char.isDigit = []) from hfpne),
              List.append_assoc]
          rw [hrn, hr]
          rw [hcs]
          congr 1
          conv_lhs => rw [← List.takeWhile_append_dropWhile Char.isDigit cs1, heq]
        · exact Option.noConfusion h
    · exact Option.noConfusion h

theorem isDigit_not_special {c : Char} (h : c.isDigit = true) :
    c ≠ ']' ∧ c ≠ '}' ∧ c ≠ ',' := by
  obtain ⟨h1, h2⟩ := isDigit_toNat h
  refine ⟨?_, ?_, ?_⟩ <;> (intro hc; subst hc; revert h1 h2; decide)

theorem isCanonNum_ne_nil {c : String} (h : isCanonNum c = true) : c.data ≠ [] := by
  intro hc
  rw [isCanonNum, hc] at h
  exact absurd h (by decide)

/-- Head character of a printed well-formed value: never whitespace or a
structural delimiter. -/
theorem printVal_head (v : JVal) (hwf : wfVal v = true) :
    ∃ c t, printVal v = c :: t ∧ isJsonWs c = false ∧ c ≠ ']' ∧ c ≠ '}' ∧ c ≠ ',' := by
  match v with
  | .null => exact ⟨'n', _, rfl, by decide, by decide, by decide, by decide⟩
  | .bool true => exact ⟨'t', _, rfl, by decide, by decide, by decide, by decide⟩
  | .bool false => exact ⟨'f', _, rfl, by decide, by decide, by decide, by decide⟩
  | .str s => exact ⟨'"', escStr s.data ++ ['"'], rfl, by decide, by decide, by decide, by decide⟩
  | .arr xs =>
    cases xs with
    | nil => exact ⟨'[', _, rfl, by decide, by decide, by decide, by decide⟩
    | cons a l =>
      exact ⟨'[', printElems (a :: l) ++ [']'], by rw [printVal, List.cons_append], by decide,
        by decide, by decide, by decide⟩
  | .obj kvs =>
    cases kvs with
    | nil => exact ⟨'{', _, rfl, by decide, by decide, by decide, by decide⟩
    | cons m ms =>
      exact ⟨'{', printMembers (m :: ms) ++ ['}'], by rw [printVal, List.cons_append], by decide,
        by decide, by decide, by decide⟩
  | .num c =>
    rw [wfVal] at hwf
    have hne := isCanonNum_ne_nil hwf
    rw [isCanonNum] at hwf
    rcases hre : numRe c.data with _ | p
    · rw [hre] at hwf
      exact absurd hwf (by decide)
    · rw [hre] at hwf
      simp only [decide_eq_true_eq] at hwf
      have hcd := numRe_sound hre
      obtain ⟨d, hd, hdor⟩ := renderNum_head hwf
      rw [← hcd] at hd
      obtain ⟨c0, t0, hct⟩ := List.exists_cons_of_ne_nil hne
      rw [hct, List.head?_cons, Option.some.injEq] at hd
      rw [← hd] at hdor
      rcases hdor with hdor | hdor
      · exact ⟨c0, t0, by rw [printVal, hct], by rw [hdor]; decide, by rw [hdor]; decide,
          by rw [hdor]; decide, by rw [hdor]; decide⟩
      · obtain ⟨g1, g2, g3⟩ := isDigit_not_special hdor
        exact ⟨c0, t0, by rw [printVal, hct], isJsonWs_digit hdor, g1, g2, g3⟩

theorem printElems_head (x : JVal) (xs : List JVal) (hwf : wfVal x = true) :
    ∃ c t, printElems (x :: xs) = c :: t ∧ isJsonWs c = false ∧ c ≠ ']' ∧ c ≠ '}' ∧ c ≠ ',' := by
  obtain ⟨c, t, hc, h1, h2, h3, h4⟩ := printVal_head x hwf
  cases xs with
  | nil => exact ⟨c, t, by rw [printElems, hc], h1, h2, h3, h4⟩
  | cons b l =>
    refine ⟨c, t ++ ',' :: printElems (b :: l), ?_, h1, h2, h3, h4⟩
    rw [show printElems (x :: b :: l) = printVal x ++ ',' :: printElems (b :: l) from rfl,
      hc, List.cons_append]

theorem objUpsert_of_not_mem {kvs : List (String × JVal)} {k : String} {v : JVal}
    (h : (kvs.any fun p => p.1 = k) = false) : objUpsert kvs k v = kvs ++ [(k, v)] := by
  rw [objUpsert, if_neg (by simp [h])]

theorem dedupKeys_aux (kvs : List (String × JVal)) :
    ∀ acc, nodupKeys kvs = true →
    (∀ p ∈ kvs, (acc.any fun q => q.1 = p.1) = false) →
    kvs.foldl (fun acc p => objUpsert acc p.1 p.2) acc = acc ++ kvs := by
  induction kvs with
  | nil => intro acc _ _; simp
  | cons q t ih =>
    intro acc hnd hacc
    obtain ⟨k, v⟩ := q
    rw [nodupKeys, Bool.and_eq_true, Bool.not_eq_true'] at hnd
    rw [List.foldl_cons]
    rw [objUpsert_of_not_mem (hacc (k, v) (List.mem_cons_self _ _))]
    rw [ih (acc ++ [(k, v)]) hnd.2]
    · rw [List.append_assoc]
      rfl
    · intro p hp
      rw [List.any_append]
      simp only [Bool.or_eq_false_iff]
      refine ⟨hacc p (List.mem_cons_of_mem _ hp), ?_⟩
      simp only [List.any_cons, List.any_nil, Bool.or_false]
      have : p.1 ≠ k := by
        intro hc
        have : t.any (fun q => q.1 = k) = true := by
          rw [List.any_eq_true]
          exact ⟨p, hp, by simp [hc]⟩
        rw [this] at hnd
        exact Bool.noConfusion hnd.1
      simp only [decide_eq_false_iff_not]
      exact fun hc => this hc.symm

/-- With distinct keys, the JavaScript duplicate-collapsing pass is the
identity. -/
theorem dedupKeys_of_nodup {kvs : List (String × JVal)} (h : nodupKeys kvs = true) :
    dedupKeys kvs = kvs := by
  rw [dedupKeys, dedupKeys_aux kvs [] h (by intro p _; rfl), List.nil_append]

theorem mem_objUpsert {kvs : List (String × JVal)} {k : String} {v : JVal}
    {p : String × JVal} (h : p ∈ objUpsert kvs k v) : p ∈ kvs ∨ p = (k, v) := by
  rw [objUpsert] at h
  split at h
  · rw [List.mem_map] at h
    obtain ⟨q, hq, hqe⟩ := h
    by_cases hk : q.1 = k
    · rw [if_pos hk] at hqe
      exact Or.inr hqe.symm
    · rw [if_neg hk] at hqe
      exact Or.inl (hqe ▸ hq)
  · rcases List.mem_append.mp h with h | h
    · exact Or.inl h
    · exact Or.inr (by simpa using h)

theorem mem_dedupKeys {kvs : List (String × JVal)} {p : String × JVal}
    (h : p ∈ dedupKeys kvs) : p ∈ kvs := by
  rw [dedupKeys] at h
  suffices haux : ∀ (l : List (String × JVal)) acc,
      p ∈ l.foldl (fun acc q => objUpsert acc q.1 q.2) acc → p ∈ acc ∨ p ∈ l by
    rcases haux kvs [] h with hc | hc
    · exact absurd hc (List.not_mem_nil p)
    · exact hc
  intro l
  induction l with
  | nil => intro acc h2; exact Or.inl h2
  | cons q t ih =>
    intro acc h2
    rw [List.foldl_cons] at h2
    rcases ih _ h2 with hc | hc
    · rcases mem_objUpsert hc with hc2 | hc2
      · exact Or.inl hc2
      · rw [hc2]
        exact Or.inr (List.mem_cons_self q t)
    · exact Or.inr (List.mem_cons_of_mem _ hc)

theorem keys_objUpsert (kvs : List (String × JVal)) (k : String) (v : JVal) :
    (objUpsert kvs k v).map Prod.fst = kvs.map Prod.fst ++
      (if (kvs.any fun p => p.1 = k) = true then [] else [k]) := by
  rw [objUpsert]
  split
  · next hc =>
    rw [List.append_nil, List.map_map]
    apply List.map_congr_left
    intro p hp
    by_cases hk : p.1 = k
    · simp [hk]
    · simp [hk]
  · next hc =>
    rw [List.map_append]
    rfl

theorem nodupKeys_eq_nodup_keys (kvs : List (String × JVal)) :
    nodupKeys kvs = true ↔ (kvs.map Prod.fst).Nodup := by
  induction kvs with
  | nil => simp [nodupKeys]
  | cons q t ih =>
    obtain ⟨k, v⟩ := q
    rw [nodupKeys, Bool.and_eq_true, Bool.not_eq_true', ih]
    simp only [List.map_cons, List.nodup_cons]
    constructor
    · rintro ⟨h1, h2⟩
      refine ⟨?_, h2⟩
      intro hc
      rw [List.mem_map] at hc
      obtain ⟨p, hp, hpe⟩ := hc
      have : t.any (fun p => p.1 = k) = true := by
        rw [List.any_eq_true]
        exact ⟨p, hp, by simp [hpe]⟩
      rw [this] at h1
      exact Bool.noConfusion h1
    · rintro ⟨h1, h2⟩
      refine ⟨?_, h2⟩
      rw [← Bool.not_eq_true, List.any_eq_true]
      rintro ⟨p, hp, hpe⟩
      apply h1
      rw [List.mem_map]
      exact ⟨p, hp, by simpa using hpe⟩

theorem nodupKeys_objUpsert {kvs : List (String × JVal)} (k : String) (v : JVal)
    (h : nodupKeys kvs = true) : nodupKeys (objUpsert kvs k v) = true := by
  rw [nodupKeys_eq_nodup_keys] at h ⊢
  rw [keys_objUpsert]
  split
  · next hc => simpa using h
  · next hc =>
    rw [List.nodup_append]
    refine ⟨h, List.nodup_singleton k, ?_⟩
    intro a ha hb
    rw [List.mem_singleton] at hb
    subst hb
    rw [List.mem_map] at ha
    obtain ⟨p, hp, hpe⟩ := ha
    apply hc
    rw [List.any_eq_true]
    exact ⟨p, hp, by simp [hpe]⟩

/-- The duplicate-collapsing pass always yields distinct keys. -/
theorem nodupKeys_dedupKeys (kvs : List (String × JVal)) :
    nodupKeys (dedupKeys kvs) = true := by
  rw [dedupKeys]
  suffices haux : ∀ (l : List (String × JVal)) acc, nodupKeys acc = true →
      nodupKeys (l.foldl (fun acc q => objUpsert acc q.1 q.2) acc) = true by
    exact haux kvs [] rfl
  intro l
  induction l with
  | nil => intro acc h; exact h
  | cons q t ih =>
    intro acc h
    rw [List.foldl_cons]
    exact ih _ (nodupKeys_objUpsert q.1 q.2 h)

theorem bnd_pos (v : JVal) : 1 ≤ bnd v := by
  match v with
  | .null | .bool _ | .num _ | .str _ => simp [bnd]
  | .arr [] => simp [bnd]
  | .arr (x :: xs) => simp [bnd]
  | .obj [] => simp [bnd]
  | .obj (m :: ms) => simp [bnd]

theorem bndE_pos (xs : List JVal) : 1 ≤ bndE xs := by
  match xs with
  | [] => simp [bndE]
  | v :: vs => simp [bndE]

theorem bndM_pos (ms : List (String × JVal)) : 1 ≤ bndM ms := by
  match ms with
  | [] => simp [bndM]
  | m :: ms => obtain ⟨k, v⟩ := m; simp [bndM]

theorem stringMk_data (s : String) : String.mk s.data = s := rfl

theorem numSafe_delim {c : Char}
    (h : c.isDigit = false ∧ c ≠ '.' ∧ c ≠ 'e' ∧ c ≠ 'E') (t : List Char) :
    numSafe (c :: t) := h

theorem isDigit_not_lit {d : Char} (h : d.isDigit = true) :
    d ≠ 'n' ∧ d ≠ 't' ∧ d ≠ 'f' ∧ d ≠ '"' ∧ d ≠ '[' ∧ d ≠ '{' := by
  obtain ⟨h1, h2⟩ := isDigit_toNat h
  refine ⟨?_, ?_, ?_, ?_, ?_, ?_⟩ <;> (intro hc; subst hc; revert h1 h2; decide)

theorem expectLit_prefix (pat : List Char) (v : JVal) (rest : List Char) :
    expectLit pat v (pat ++ rest) = some (v, rest) := by
  rw [expectLit, if_pos, List.drop_left]
  rw [List.isPrefixOf_iff_prefix]
  exact List.prefix_append pat rest

/-- One-step unfolding of `parseVal` at a non-whitespace head character. -/
theorem parseVal_cons (fuel : Nat) (c : Char) (cs : List Char) (h : isJsonWs c = false) :
    parseVal (fuel + 1) (c :: cs) =
      (if c = 'n' then expectLit ['u', 'l', 'l'] .null cs
       else if c = 't' then expectLit ['r', 'u', 'e'] (.bool true) cs
       else if c = 'f' then expectLit ['a', 'l', 's', 'e'] (.bool false) cs
       else if c = '"' then
         (match parseStrBody (cs.length + 1) cs with
          | none => none
          | some (sChars, r) => some (.str (String.mk sChars), r))
       else if c = '[' then
         (match skipWs cs with
          | ']' :: r2 => some (.arr [], r2)
          | _ =>
            match parseElems fuel cs with
            | none => none
            | some (xs, r) => some (.arr xs, r))
       else if c = '{' then
         (match skipWs cs with
          | '}' :: r2 => some (.obj [], r2)
          | _ =>
            match parseMembers fuel cs with
            | none => none
            | some (ms, r) => some (.obj (dedupKeys ms), r))
       else if c = '-' ∨ c.isDigit then
         (match parseNum (c :: cs) with
          | none => none
          | some (numStr, r) => some (.num numStr, r))
       else none) := by
  rw [parseVal, skipWs_cons_not_ws h]

mutual

theorem parseVal_rt (v : JVal) (rest : List Char) (fuel : Nat)
    (hwf : wfVal v = true) (hf : bnd v ≤ fuel)
    (hsafe : ∀ c, v = .num c → numSafe rest) :
    parseVal fuel (printVal v ++ rest) = some (v, rest) := by
  match v, fuel with
  | v, 0 => exact absurd (le_trans (bnd_pos v) hf) (by omega)
  | .null, fuel + 1 =>
    rw [show printVal .null ++ rest = 'n' :: (['u', 'l', 'l'] ++ rest) from rfl]
    rw [parseVal_cons fuel 'n' _ (by decide), if_pos rfl, expectLit_prefix]
  | .bool true, fuel + 1 =>
    rw [show printVal (.bool true) ++ rest = 't' :: (['r', 'u', 'e'] ++ rest) from rfl]
    rw [parseVal_cons fuel 't' _ (by decide), if_neg (by decide), if_pos rfl, expectLit_prefix]
  | .bool false, fuel + 1 =>
    rw [show printVal (.bool false) ++ rest = 'f' :: (['a', 'l', 's', 'e'] ++ rest) from rfl]
    rw [parseVal_cons fuel 'f' _ (by decide), if_neg (by decide), if_neg (by decide),
      if_pos rfl, expectLit_prefix]
  | .num c, fuel + 1 =>
    have hsafe2 : numSafe rest := hsafe c rfl
    rw [wfVal, isCanonNum] at hwf
    rcases hre : numRe c.data with _ | p
    · rw [hre] at hwf; exact absurd hwf (by decide)
    · rw [hre] at hwf
      simp only [decide_eq_true_eq] at hwf
      have hcd := numRe_sound hre
      obtain ⟨d, t, hct, hws, -, -, -⟩ := printVal_head (.num c) (by
        rw [wfVal, isCanonNum, hre]; simpa using hwf)
      rw [printVal] at hct
      obtain ⟨g1, g2, g3, g4, g5, g6, g7⟩ :
          d ≠ 'n' ∧ d ≠ 't' ∧ d ≠ 'f' ∧ d ≠ '"' ∧ d ≠ '[' ∧ d ≠ '{' ∧
            (d = '-' ∨ d.isDigit = true) := by
        obtain ⟨e, he, heor⟩ := renderNum_head hwf
        rw [← hcd, hct, List.head?_cons, Option.some.injEq] at he
        subst he
        rcases heor with h | h
        · subst h
          exact ⟨by decide, by decide, by decide, by decide, by decide, by decide, Or.inl rfl⟩
        · obtain ⟨k1, k2, k3, k4, k5, k6⟩ := isDigit_not_lit h
          exact ⟨k1, k2, k3, k4, k5, k6, Or.inr h⟩
      have hpn : parseNum (d :: (t ++ rest)) = some (String.mk (d :: t), rest) := by
        have hh := parseNum_rt hwf rest hsafe2
        rw [← hcd, hct, List.cons_append] at hh
        exact hh
      have hcs : String.mk (d :: t) = c := by rw [← hct]
      rw [printVal, hct, List.cons_append, parseVal_cons fuel d _ hws]
      simp only [if_neg g1, if_neg g2, if_neg g3, if_neg g4, if_neg g5, if_neg g6,
        if_pos g7, hpn, hcs]
  | .str s, fuel + 1 =>
    have hshape : printVal (.str s) ++ rest = '"' :: (escStr s.data ++ '"' :: rest) := by
      simp [printVal]
    have hlen : (escStr s.data).length + 1 ≤ (escStr s.data ++ '"' :: rest).length + 1 := by
      rw [List.length_append]
      omega
    rw [hshape, parseVal_cons fuel '"' _ (by decide)]
    simp only [if_neg (show ('"' : Char) ≠ 'n' by decide),
      if_neg (show ('"' : Char) ≠ 't' by decide),
      if_neg (show ('"' : Char) ≠ 'f' by decide), if_pos rfl, if_true,
      parseStrBody_escStr s.data _ rest hlen, stringMk_data]
  | .arr [], fuel + 1 =>
    rw [show printVal (.arr []) ++ rest = '[' :: (']' :: rest) from rfl]
    rw [parseVal_cons fuel '[' _ (by decide)]
    simp only [if_neg (show ('[' : Char) ≠ 'n' by decide),
      if_neg (show ('[' : Char) ≠ 't' by decide),
      if_neg (show ('[' : Char) ≠ 'f' by decide),
      if_neg (show ('[' : Char) ≠ '"' by decide), if_pos rfl, if_true,
      skipWs_cons_not_ws (show isJsonWs ']' = false by decide)]
  | .arr (x :: xs), fuel + 1 =>
    have hwx : wfVal x = true ∧ wfElems xs = true := by
      rw [wfVal, wfElems, Bool.and_eq_true] at hwf
      exact hwf
    have hb : bndE (x :: xs) ≤ fuel := by
      rw [bnd] at hf; omega
    obtain ⟨c, t, hc, hws, hne1, hne2, hne3⟩ := printElems_head x xs hwx.1
    have hshape : printVal (.arr (x :: xs)) ++ rest
        = '[' :: (printElems (x :: xs) ++ ']' :: rest) := by
      simp [printVal]
    have hrt := parseElems_rt x xs rest fuel hwf hb
    rw [hshape, parseVal_cons fuel '[' _ (by decide)]
    simp only [if_neg (show ('[' : Char) ≠ 'n' by decide),
      if_neg (show ('[' : Char) ≠ 't' by decide),
      if_neg (show ('[' : Char) ≠ 'f' by decide),
      if_neg (show ('[' : Char) ≠ '"' by decide), if_pos rfl, if_true]
    rw [hc, List.cons_append, skipWs_cons_not_ws hws]
    split
    · next r2 heq => exact absurd (List.cons.injEq .. |>.mp heq).1 hne1
    · rw [← List.cons_append, ← hc, hrt]
  | .obj [], fuel + 1 =>
    rw [show printVal (.obj []) ++ rest = '{' :: ('}' :: rest) from rfl]
    rw [parseVal_cons fuel '{' _ (by decide)]
    simp only [if_neg (show ('{' : Char) ≠ 'n' by decide),
      if_neg (show ('{' : Char) ≠ 't' by decide),
      if_neg (show ('{' : Char) ≠ 'f' by decide),
      if_neg (show ('{' : Char) ≠ '"' by decide),
      if_neg (show ('{' : Char) ≠ '[' by decide), if_pos rfl, if_true,
      skipWs_cons_not_ws (show isJsonWs '}' = false by decide)]
  | .obj (m :: ms), fuel + 1 =>
    have hnd : nodupKeys (m :: ms) = true ∧ wfMems (m :: ms) = true := by
      rw [wfVal, Bool.and_eq_true] at hwf
      exact hwf
    have hb : bndM (m :: ms) ≤ fuel := by
      rw [bnd] at hf; omega
    have hshape : printVal (.obj (m :: ms)) ++ rest
        = '{' :: (printMembers (m :: ms) ++ '}' :: rest) := by
      simp [printVal]
    have hrt := parseMembers_rt m ms rest fuel hnd.2 hb
    have hpm : ∃ t2, printMembers (m :: ms) = '"' :: t2 := by
      obtain ⟨k, v⟩ := m
      cases ms with
      | nil => exact ⟨_, rfl⟩
      | cons m2 ms2 => exact ⟨_, rfl⟩
    obtain ⟨t2, ht2⟩ := hpm
    rw [hshape, parseVal_cons fuel '{' _ (by decide)]
    simp only [if_neg (show ('{' : Char) ≠ 'n' by decide),
      if_neg (show ('{' : Char) ≠ 't' by decide),
      if_neg (show ('{' : Char) ≠ 'f' by decide),
      if_neg (show ('{' : Char) ≠ '"' by decide),
      if_neg (show ('{' : Char) ≠ '[' by decide), if_pos rfl, if_true]
    rw [ht2, List.cons_append, skipWs_cons_not_ws (by decide)]
    split
    · next r2 heq => exact absurd (List.cons.injEq .. |>.mp heq).1 (by decide)
    · rw [← List.cons_append, ← ht2, hrt]
      simp only [dedupKeys_of_nodup hnd.1]

theorem parseElems_rt (x : JVal) (xs : List JVal) (rest : List Char) (fuel : Nat)
    (hwf : wfElems (x :: xs) = true) (hf : bndE (x :: xs) ≤ fuel) :
    parseElems fuel (printElems (x :: xs) ++ ']' :: rest) = some (x :: xs, rest) := by
  match fuel with
  | 0 => exact absurd (le_trans (bndE_pos _) hf) (by omega)
  | fuel + 1 =>
    rw [wfElems, Bool.and_eq_true] at hwf
    have hx : bnd x ≤ fuel := by rw [bndE] at hf; omega
    cases xs with
    | nil =>
      rw [show printElems [x] = printVal x from rfl]
      simp only [parseElems, parseVal_rt x (']' :: rest) fuel hwf.1 hx
        (fun c hc => ⟨by decide, by decide, by decide, by decide⟩),
        skipWs_cons_not_ws (show isJsonWs ']' = false by decide)]
    | cons b l =>
      have hb : bndE (b :: l) ≤ fuel := by
        rw [bndE] at hf
        have := le_max_right (bnd x) (bndE (b :: l))
        omega
      have heq : printElems (x :: b :: l) ++ ']' :: rest
          = printVal x ++ (',' :: (printElems (b :: l) ++ ']' :: rest)) := by
        rw [show printElems (x :: b :: l) = printVal x ++ ',' :: printElems (b :: l) from rfl]
        simp
      rw [heq]
      simp only [parseElems,
        parseVal_rt x (',' :: (printElems (b :: l) ++ ']' :: rest)) fuel hwf.1 hx
          (fun c hc => ⟨by decide, by decide, by decide, by decide⟩),
        skipWs_cons_not_ws (show isJsonWs ',' = false by decide),
        parseElems_rt b l rest fuel hwf.2 hb]

theorem parseMembers_rt (m : String × JVal) (ms : List (String × JVal)) (rest : List Char)
    (fuel : Nat) (hwf : wfMems (m :: ms) = true) (hf : bndM (m :: ms) ≤ fuel) :
    parseMembers fuel (printMembers (m :: ms) ++ '}' :: rest) = some (m :: ms, rest) := by
  match fuel with
  | 0 => exact absurd (le_trans (bndM_pos _) hf) (by omega)
  | fuel + 1 =>
    obtain ⟨k, v⟩ := m
    rw [show wfMems ((k, v) :: ms) = (wfVal v && wfMems ms) from rfl,
      Bool.and_eq_true] at hwf
    have hx : bnd v ≤ fuel := by
      rw [show bndM ((k, v) :: ms) = 1 + max (bnd v) (bndM ms) from rfl] at hf
      omega
    cases ms with
    | nil =>
      have hshape : printMembers [(k, v)] ++ '}' :: rest
          = '"' :: (escStr k.data ++ '"' :: (':' :: (printVal v ++ '}' :: rest))) := by
        rw [show printMembers [(k, v)] = '"' :: escStr k.data ++ '"' :: ':' :: printVal v
          from rfl]
        simp
      have hlen : (escStr k.data).length + 1
          ≤ (escStr k.data ++ '"' :: (':' :: (printVal v ++ '}' :: rest))).length + 1 := by
        rw [List.length_append]
        omega
      rw [hshape]
      simp only [parseMembers,
        skipWs_cons_not_ws (show isJsonWs '"' = false by decide),
        skipWs_cons_not_ws (show isJsonWs ':' = false by decide),
        skipWs_cons_not_ws (show isJsonWs '}' = false by decide),
        parseStrBody_escStr k.data _ _ hlen,
        parseVal_rt v ('}' :: rest) fuel hwf.1 hx
          (fun c hc => ⟨by decide, by decide, by decide, by decide⟩),
        stringMk_data]
    | cons m2 ms2 =>
      have hb : bndM (m2 :: ms2) ≤ fuel := by
        rw [show bndM ((k, v) :: m2 :: ms2) = 1 + max (bnd v) (bndM (m2 :: ms2)) from rfl]
          at hf
        have := le_max_right (bnd v) (bndM (m2 :: ms2))
        omega
      have hshape : printMembers ((k, v) :: m2 :: ms2) ++ '}' :: rest
          = '"' :: (escStr k.data ++ '"' :: (':' :: (printVal v
            ++ ',' :: (printMembers (m2 :: ms2) ++ '}' :: rest)))) := by
        rw [show printMembers ((k, v) :: m2 :: ms2)
          = ('"' :: escStr k.data ++ '"' :: ':' :: printVal v)
            ++ ',' :: printMembers (m2 :: ms2) from rfl]
        simp
      have hlen : (escStr k.data).length + 1
          ≤ (escStr k.data ++ '"' :: (':' :: (printVal v
            ++ ',' :: (printMembers (m2 :: ms2) ++ '}' :: rest)))).length + 1 := by
        rw [List.length_append]
        omega
      rw [hshape]
      simp only [parseMembers,
        skipWs_cons_not_ws (show isJsonWs '"' = false by decide),
        skipWs_cons_not_ws (show isJsonWs ':' = false by decide),
        skipWs_cons_not_ws (show isJsonWs ',' = false by decide),
        parseStrBody_escStr k.data _ _ hlen,
        parseVal_rt v (',' :: (printMembers (m2 :: ms2) ++ '}' :: rest)) fuel hwf.1 hx
          (fun c hc => ⟨by decide, by decide, by decide, by decide⟩),
        parseMembers_rt m2 ms2 rest fuel hwf.2 hb,
        stringMk_data]

end

/-! ### Values produced by the parser are well-formed -/

theorem wfMems_iff (ms : List (String × JVal)) :
    wfMems ms = true ↔ ∀ p ∈ ms, wfVal p.2 = true := by
  induction ms with
  | nil => simp [wfMems]
  | cons q t ih =>
    obtain ⟨k, v⟩ := q
    rw [show wfMems ((k, v) :: t) = (wfVal v && wfMems t) from rfl, Bool.and_eq_true, ih]
    constructor
    · rintro ⟨h1, h2⟩ p hp
      rcases List.mem_cons.mp hp with hp | hp
      · rw [hp]; exact h1
      · exact h2 p hp
    · intro hall
      exact ⟨hall (k, v) (List.mem_cons_self _ _), fun p hp => hall p (List.mem_cons_of_mem _ hp)⟩

theorem expectLit_some {pat : List Char} {v0 v : JVal} {cs r : List Char}
    (h : expectLit pat v0 cs = some (v, r)) : v = v0 := by
  rw [expectLit] at h
  split at h
  · rw [Option.some.injEq, Prod.mk.injEq] at h
    exact h.1.symm
  · exact Option.noConfusion h

mutual

theorem parseVal_wf (fuel : Nat) (cs : List Char) (v : JVal) (r : List Char)
    (h : parseVal fuel cs = some (v, r)) : wfVal v = true := by
  match fuel with
  | 0 => exact Option.noConfusion h
  | fuel + 1 =>
    rw [parseVal] at h
    split at h
    · exact Option.noConfusion h
    · split at h
      · rw [expectLit_some h]; rfl
      · split at h
        · rw [expectLit_some h]; rfl
        · split at h
          · rw [expectLit_some h]; rfl
          · split at h
            · split at h
              · exact Option.noConfusion h
              · rw [Option.some.injEq, Prod.mk.injEq] at h
                rw [← h.1]; rfl
            · split at h
              · split at h
                · rw [Option.some.injEq, Prod.mk.injEq] at h
                  rw [← h.1]; rfl
                · split at h
                  · exact Option.noConfusion h
                  · next xs r3 heq =>
                    rw [Option.some.injEq, Prod.mk.injEq] at h
                    rw [← h.1, wfVal]
                    exact parseElems_wf fuel _ xs r3 heq
              · split at h
                · split at h
                  · rw [Option.some.injEq, Prod.mk.injEq] at h
                    rw [← h.1]; rfl
                  · split at h
                    · exact Option.noConfusion h
                    · next ms r3 heq =>
                      rw [Option.some.injEq, Prod.mk.injEq] at h
                      rw [← h.1, wfVal, Bool.and_eq_true]
                      refine ⟨nodupKeys_dedupKeys ms, ?_⟩
                      rw [wfMems_iff]
                      intro p hp
                      have hmem := mem_dedupKeys hp
                      have hms := parseMembers_wf fuel _ ms r3 heq
                      rw [wfMems_iff] at hms
                      exact hms p hmem
                · split at h
                  · split at h
                    · exact Option.noConfusion h
                    · next numStr r2 heq =>
                      rw [Option.some.injEq, Prod.mk.injEq] at h
                      rw [← h.1, wfVal]
                      exact parseNum_wf heq
                  · exact Option.noConfusion h

theorem parseElems_wf (fuel : Nat) (cs : List Char) (xs : List JVal) (r : List Char)
    (h : parseElems fuel cs = some (xs, r)) : wfElems xs = true := by
  match fuel with
  | 0 => exact Option.noConfusion h
  | fuel + 1 =>
    rw [parseElems] at h
    split at h
    · exact Option.noConfusion h
    · next v r1 heq1 =>
      have hv := parseVal_wf fuel cs v r1 heq1
      split at h
      · split at h
        · exact Option.noConfusion h
        · next ys r3 heq2 =>
          rw [Option.some.injEq, Prod.mk.injEq] at h
          rw [← h.1, wfElems, Bool.and_eq_true]
          exact ⟨hv, parseElems_wf fuel _ ys r3 heq2⟩
      · rw [Option.some.injEq, Prod.mk.injEq] at h
        rw [← h.1, wfElems, Bool.and_eq_true]
        exact ⟨hv, rfl⟩
      · exact Option.noConfusion h

theorem parseMembers_wf (fuel : Nat) (cs : List Char) (ms : List (String × JVal))
    (r : List Char) (h : parseMembers fuel cs = some (ms, r)) : wfMems ms = true := by
  match fuel with
  | 0 => exact Option.noConfusion h
  | fuel + 1 =>
    rw [parseMembers] at h
    split at h
    · split at h
      · exact Option.noConfusion h
      · split at h
        · split at h
          · exact Option.noConfusion h
          · next v r3 heqv =>
            have hv := parseVal_wf fuel _ v r3 heqv
            split at h
            · split at h
              · exact Option.noConfusion h
              · next ms2 r5 heq2 =>
                rw [Option.some.injEq, Prod.mk.injEq] at h
                rw [← h.1]
                rw [show wfMems ((_, v) :: ms2) = (wfVal v && wfMems ms2) from rfl,
                  Bool.and_eq_true]
                exact ⟨hv, parseMembers_wf fuel _ ms2 r5 heq2⟩
            · rw [Option.some.injEq, Prod.mk.injEq] at h
              rw [← h.1]
              rw [show wfMems [(_, v)] = (wfVal v && wfMems []) from rfl, Bool.and_eq_true]
              exact ⟨hv, rfl⟩
            · exact Option.noConfusion h
        · exact Option.noConfusion h
    · exact Option.noConfusion h

end

theorem printVal_length_pos (v : JVal) (hwf : wfVal v = true) :
    1 ≤ (printVal v).length := by
  obtain ⟨c, t, hc, -, -, -, -⟩ := printVal_head v hwf
  rw [hc]
  simp

theorem jval_strong_ind (P : JVal → Prop)
    (h : ∀ v, (∀ w, sizeOf w < sizeOf v → P w) → P v) : ∀ v, P v := by
  intro v
  have key : ∀ n (w : JVal), sizeOf w < n → P w := by
    intro n
    induction n with
    | zero => intro w hw; omega
    | succ n ih => intro w hw; exact h w (fun u hu => ih u (by omega))
  exact key (sizeOf v + 1) v (by omega)

theorem bndE_le_of (xs : List JVal)
    (h : ∀ x ∈ xs, wfVal x = true → bnd x ≤ (printVal x).length)
    (hwf : wfElems xs = true) :
    bndE xs ≤ (printElems xs).length + 1 := by
  induction xs with
  | nil => simp [bndE, printElems]
  | cons x t ih =>
    rw [wfElems, Bool.and_eq_true] at hwf
    have h1 := h x (by simp) hwf.1
    cases t with
    | nil =>
      have h3 := printVal_length_pos x hwf.1
      rw [bndE, show printElems [x] = printVal x from rfl,
        show bndE ([] : List JVal) = 1 from rfl]
      rcases max_cases (bnd x) 1 with ⟨hm, -⟩ | ⟨hm, -⟩ <;> omega
    | cons b l =>
      have h2 := ih (fun y hy => h y (List.mem_cons_of_mem x hy)) hwf.2
      rw [bndE, show printElems (x :: b :: l) = printVal x ++ ',' :: printElems (b :: l)
        from rfl]
      rw [List.length_append, List.length_cons]
      rcases max_cases (bnd x) (bndE (b :: l)) with ⟨hm, -⟩ | ⟨hm, -⟩ <;> omega

theorem bndM_le_of (ms : List (String × JVal))
    (h : ∀ k y, (k, y) ∈ ms → wfVal y = true → bnd y ≤ (printVal y).length)
    (hwf : wfMems ms = true) :
    bndM ms ≤ (printMembers ms).length + 1 := by
  induction ms with
  | nil => simp [bndM, printMembers]
  | cons m t ih =>
    obtain ⟨k, v⟩ := m
    rw [show wfMems ((k, v) :: t) = (wfVal v && wfMems t) from rfl,
      Bool.and_eq_true] at hwf
    have h1 := h k v (by simp) hwf.1
    cases t with
    | nil =>
      rw [show bndM [(k, v)] = 1 + max (bnd v) (bndM []) from rfl,
        show printMembers [(k, v)] = '"' :: escStr k.data ++ '"' :: ':' :: printVal v from rfl,
        show bndM ([] : List (String × JVal)) = 1 from rfl]
      rw [List.cons_append, List.length_cons, List.length_append]
      simp only [List.length_cons]
      rcases max_cases (bnd v) 1 with ⟨hm, -⟩ | ⟨hm, -⟩ <;> omega
    | cons m2 ms2 =>
      have h2 := ih (fun k2 y2 hy => h k2 y2 (List.mem_cons_of_mem _ hy)) hwf.2
      rw [show bndM ((k, v) :: m2 :: ms2) = 1 + max (bnd v) (bndM (m2 :: ms2)) from rfl,
        show printMembers ((k, v) :: m2 :: ms2)
          = ('"' :: escStr k.data ++ '"' :: ':' :: printVal v) ++ ',' :: printMembers (m2 :: ms2)
          from rfl]
      rw [List.length_append, List.cons_append, List.length_cons, List.length_append]
      simp only [List.length_cons]
      rcases max_cases (bnd v) (bndM (m2 :: ms2)) with ⟨hm, -⟩ | ⟨hm, -⟩ <;> omega

theorem bnd_le (v : JVal) (hwf : wfVal v = true) : bnd v ≤ (printVal v).length := by
  revert hwf
  refine jval_strong_ind (fun v => wfVal v = true → bnd v ≤ (printVal v).length) ?_ v
  intro v IH hwf
  cases v with
  | null => simp [bnd, printVal]
  | bool b => cases b <;> simp [bnd, printVal]
  | num c =>
    rw [bnd, printVal]
    rw [wfVal] at hwf
    have h1 := isCanonNum_ne_nil hwf
    have h2 : 0 < c.data.length := List.length_pos.mpr h1
    omega
  | str s =>
    rw [bnd, printVal]
    simp
  | arr xs =>
    cases xs with
    | nil => simp [bnd, printVal]
    | cons x t =>
      rw [wfVal] at hwf
      have h1 := bndE_le_of (x :: t)
        (fun y hy hwfy => IH y (by
          have h5 := List.sizeOf_lt_of_mem hy
          simp only [JVal.arr.sizeOf_spec]
          omega) hwfy) hwf
      have hlen : (printVal (.arr (x :: t))).length = (printElems (x :: t)).length + 2 := by
        rw [printVal]
        simp
      rw [bnd, hlen]
      omega
  | obj kvs =>
    cases kvs with
    | nil => simp [bnd, printVal]
    | cons m ms =>
      rw [wfVal, Bool.and_eq_true] at hwf
      have h1 := bndM_le_of (m :: ms)
        (fun k y hy hwfy => IH y (by
          have h5 := List.sizeOf_lt_of_mem hy
          simp only [Prod.mk.sizeOf_spec] at h5
          simp only [JVal.obj.sizeOf_spec]
          omega) hwfy) hwf.2
      have hlen : (printVal (.obj (m :: ms))).length = (printMembers (m :: ms)).length + 2 := by
        rw [printVal]
        simp
      rw [bnd, hlen]
      omega

/-- `JSON.parse` inverts `JSON.stringify` on well-formed values. -/
theorem jsonParse_stringify {v : JVal} (hwf : wfVal v = true) :
    jsonParse (jsonStringify v) = some v := by
  rw [jsonStringify, jsonParse]
  have hdata : (String.mk (printVal v)).data = printVal v := rfl
  rw [hdata]
  have hfuel : bnd v ≤ 2 * (printVal v).length + 2 :=
    le_trans (bnd_le v hwf) (by omega)
  have h2 := parseVal_rt v [] (2 * (printVal v).length + 2) hwf hfuel
    (fun c hc => trivial)
  rw [List.append_nil] at h2
  rw [h2]
  rfl

/-! ## `normalizeOutput` (run route)

Model of the `looksJsonLike` / `normalizeOutput` helpers of
`src/app/api/run/route.js`.  In the numeric branch the source guards with
`raw !== ""` and `!Number.isNaN(Number(raw))` before testing the regular
expression; both guards are implied by a successful match of the pattern
`/^-?\d+(\.\d+)?$/` (a matching string is non-empty and converts to a
non-NaN number), so the branch is modelled by the pattern match alone. -/

/-- `t.startsWith(c)` for a one-character pattern. -/
def strHeadIs (t : String) (c : Char) : Bool :=
  t.data.head? = some c

/-- `t.endsWith(c)` for a one-character pattern. -/
def strLastIs (t : String) (c : Char) : Bool :=
  t.data.getLast? = some c

/-- Model of `looksJsonLike` (the local `t` of the source is inlined:
every use below is applied to the trimmed string). -/
def looksJsonLike (s : String) : Bool :=
  (strHeadIs (jsTrim s) '{' && strLastIs (jsTrim s) '}') ||
  (strHeadIs (jsTrim s) '[' && strLastIs (jsTrim s) ']') ||
  (strHeadIs (jsTrim s) '"' && strLastIs (jsTrim s) '"')

/-- Model of `normalizeOutput`. -/
def normalizeOutput (value : String) : String :=
  let raw := jsTrim value
  if raw = "null" then "null"
  else if raw = "true" then "true"
  else if raw = "false" then "false"
  else
    match numRe raw.data with
    | some p => jsNumCanon p
    | none =>
      if looksJsonLike raw then
        match jsonParse raw with
        | some v => jsonStringify v
        | none => raw
      else raw

theorem normalizeOutput_eval (value : String) :
    normalizeOutput value =
      (if jsTrim value = "null" then "null"
       else if jsTrim value = "true" then "true"
       else if jsTrim value = "false" then "false"
       else
         match numRe (jsTrim value).data with
         | some p => jsNumCanon p
         | none =>
           if looksJsonLike (jsTrim value) then
             match jsonParse (jsTrim value) with
             | some v => jsonStringify v
             | none => jsTrim value
           else jsTrim value) := rfl

/-! ### `trim` is idempotent -/

theorem dropWhile_dropWhile (p : α → Bool) (l : List α) :
    (l.dropWhile p).dropWhile p = l.dropWhile p := by
  cases h : l.dropWhile p with
  | nil => rfl
  | cons a t =>
    have ha : p a = false := head?_dropWhile_ne (by rw [h]; rfl)
    rw [List.dropWhile_cons_of_neg (by simp [ha])]

theorem getLast?_append_right {l : List α} (t : List α) {a : α}
    (h : l.getLast? = some a) : (t ++ l).getLast? = some a := by
  rw [← List.head?_reverse] at h
  rw [← List.head?_reverse, List.reverse_append]
  cases hr : l.reverse with
  | nil => rw [hr] at h; exact absurd h (by simp)
  | cons b u => rw [hr] at h; simp_all

theorem jsTrimL_last {l : List Char} {c : Char}
    (h : (jsTrimL l).getLast? = some c) : isJsWhite c = false := by
  rw [jsTrimL, List.getLast?_reverse] at h
  exact head?_dropWhile_ne h

theorem jsTrimL_head {l : List Char} {c : Char}
    (h : (jsTrimL l).head? = some c) : isJsWhite c = false := by
  rw [jsTrimL, List.head?_reverse] at h
  obtain ⟨t, ht⟩ := List.dropWhile_suffix (l := (l.dropWhile isJsWhite).reverse) isJsWhite
  have h2 : ((l.dropWhile isJsWhite).reverse).getLast? = some c := by
    rw [← ht]
    exact getLast?_append_right t h
  rw [List.getLast?_reverse] at h2
  exact head?_dropWhile_ne h2

theorem jsTrimL_eq_self_of_ends {l : List Char}
    (h1 : ∀ c, l.head? = some c → isJsWhite c = false)
    (h2 : ∀ c, l.getLast? = some c → isJsWhite c = false) : jsTrimL l = l := by
  have hd : l.dropWhile isJsWhite = l := by
    cases l with
    | nil => rfl
    | cons a t =>
      rw [List.dropWhile_cons_of_neg]
      simp [h1 a rfl]
  rw [jsTrimL, hd]
  have hr : l.reverse.dropWhile isJsWhite = l.reverse := by
    cases hrev : l.reverse with
    | nil => rfl
    | cons a t =>
      rw [List.dropWhile_cons_of_neg]
      have ha : l.getLast? = some a := by
        rw [← List.head?_reverse, hrev]
        rfl
      simp [h2 a ha]
  rw [hr, List.reverse_reverse]

theorem jsTrimL_idem (l : List Char) : jsTrimL (jsTrimL l) = jsTrimL l :=
  jsTrimL_eq_self_of_ends (fun _ hc => jsTrimL_head hc) (fun _ hc => jsTrimL_last hc)

theorem jsTrim_idem (s : String) : jsTrim (jsTrim s) = jsTrim s :=
  congrArg String.mk (jsTrimL_idem s.data)

theorem jsTrim_eq_self_of_ends {t : String}
    (h1 : ∀ c, t.data.head? = some c → isJsWhite c = false)
    (h2 : ∀ c, t.data.getLast? = some c → isJsWhite c = false) : jsTrim t = t :=
  String.eq_of_data_eq (jsTrimL_eq_self_of_ends h1 h2)

/-! ### Branch-selection facts -/

theorem numRe_none_head {cs : List Char} {c : Char} (h : cs.head? = some c)
    (hd : c.isDigit = false) (hm : c ≠ '-') : numRe cs = none := by
  cases cs with
  | nil => exact absurd h (by simp)
  | cons a t =>
    have ha : a = c := by
      have h2 : some a = some c := h
      exact Option.some.inj h2
    subst ha
    rw [numRe]
    have hnd : decide ((a :: t).head? = some '-') = false := by
      simp only [List.head?_cons, Option.some.injEq, decide_eq_false_iff_not]
      exact hm
    simp only [hnd, Bool.false_eq_true, if_false,
      List.takeWhile_cons_of_neg (by simp [hd] : ¬(a.isDigit = true))]
    simp

theorem parseVal_skipWs (fuel : Nat) (cs : List Char) :
    parseVal (fuel + 1) cs = parseVal (fuel + 1) (skipWs cs) := by
  conv_lhs => rw [parseVal]
  conv_rhs => rw [parseVal]
  rw [show skipWs (skipWs cs) = skipWs cs from dropWhile_dropWhile isJsonWs cs]

theorem parseVal_shape_obj {fuel : Nat} {cs t : List Char} {v : JVal} {r : List Char}
    (hcs : skipWs cs = '{' :: t) (h : parseVal fuel cs = some (v, r)) :
    ∃ kvs, v = JVal.obj kvs := by
  cases fuel with
  | zero => exact Option.noConfusion h
  | succ fuel =>
    rw [parseVal_skipWs, hcs, parseVal_cons fuel '{' t (by decide)] at h
    rw [if_neg (by decide), if_neg (by decide), if_neg (by decide), if_neg (by decide),
      if_neg (by decide), if_pos rfl] at h
    split at h
    · rw [Option.some.injEq, Prod.mk.injEq] at h
      exact ⟨[], h.1.symm⟩
    · split at h
      · exact Option.noConfusion h
      · rw [Option.some.injEq, Prod.mk.injEq] at h
        exact ⟨_, h.1.symm⟩

theorem parseVal_shape_arr {fuel : Nat} {cs t : List Char} {v : JVal} {r : List Char}
    (hcs : skipWs cs = '[' :: t) (h : parseVal fuel cs = some (v, r)) :
    ∃ xs, v = JVal.arr xs := by
  cases fuel with
  | zero => exact Option.noConfusion h
  | succ fuel =>
    rw [parseVal_skipWs, hcs, parseVal_cons fuel '[' t (by decide)] at h
    rw [if_neg (by decide), if_neg (by decide), if_neg (by decide), if_neg (by decide),
      if_pos rfl] at h
    split at h
    · rw [Option.some.injEq, Prod.mk.injEq] at h
      exact ⟨[], h.1.symm⟩
    · split at h
      · exact Option.noConfusion h
      · rw [Option.some.injEq, Prod.mk.injEq] at h
        exact ⟨_, h.1.symm⟩

theorem parseVal_shape_str {fuel : Nat} {cs t : List Char} {v : JVal} {r : List Char}
    (hcs : skipWs cs = '"' :: t) (h : parseVal fuel cs = some (v, r)) :
    ∃ sc, v = JVal.str sc := by
  cases fuel with
  | zero => exact Option.noConfusion h
  | succ fuel =>
    rw [parseVal_skipWs, hcs, parseVal_cons fuel '"' t (by decide)] at h
    rw [if_neg (by decide), if_neg (by decide), if_neg (by decide), if_pos rfl] at h
    split at h
    · exact Option.noConfusion h
    · rw [Option.some.injEq, Prod.mk.injEq] at h
      exact ⟨_, h.1.symm⟩

theorem jsonParse_wf {s : String} {v : JVal} (h : jsonParse s = some v) :
    wfVal v = true := by
  rw [jsonParse] at h
  split at h
  · next v2 rest heq =>
    split at h
    · rw [Option.some.injEq] at h
      subst h
      exact parseVal_wf _ _ _ _ heq
    · exact Option.noConfusion h
  · exact Option.noConfusion h

theorem jsonParse_obj {s : String} {t : List Char} {v : JVal}
    (hh : s.data = '{' :: t) (h : jsonParse s = some v) : ∃ kvs, v = JVal.obj kvs := by
  rw [jsonParse] at h
  split at h
  · next v2 rest heq =>
    split at h
    · rw [Option.some.injEq] at h
      subst h
      exact parseVal_shape_obj (by rw [hh]; exact skipWs_cons_not_ws (by decide) t) heq
    · exact Option.noConfusion h
  · exact Option.noConfusion h

theorem jsonParse_arr {s : String} {t : List Char} {v : JVal}
    (hh : s.data = '[' :: t) (h : jsonParse s = some v) : ∃ xs, v = JVal.arr xs := by
  rw [jsonParse] at h
  split at h
  · next v2 rest heq =>
    split at h
    · rw [Option.some.injEq] at h
      subst h
      exact parseVal_shape_arr (by rw [hh]; exact skipWs_cons_not_ws (by decide) t) heq
    · exact Option.noConfusion h
  · exact Option.noConfusion h

theorem jsonParse_str {s : String} {t : List Char} {v : JVal}
    (hh : s.data = '"' :: t) (h : jsonParse s = some v) : ∃ sc, v = JVal.str sc := by
  rw [jsonParse] at h
  split at h
  · next v2 rest heq =>
    split at h
    · rw [Option.some.injEq] at h
      subst h
      exact parseVal_shape_str (by rw [hh]; exact skipWs_cons_not_ws (by decide) t) heq
    · exact Option.noConfusion h
  · exact Option.noConfusion h

theorem bor3_cases {a b c : Bool} (h : (a || b || c) = true) :
    a = true ∨ b = true ∨ c = true := by
  cases a <;> cases b <;> cases c <;> simp_all

theorem band_left {a b : Bool} (h : (a && b) = true) : a = true := by
  cases a <;> simp_all

theorem looksJsonLike_head {s : String} (hjson : looksJsonLike (jsTrim s) = true) :
    (jsTrim s).data.head? = some '{' ∨ (jsTrim s).data.head? = some '[' ∨
    (jsTrim s).data.head? = some '"' := by
  rw [looksJsonLike, jsTrim_idem] at hjson
  rcases bor3_cases hjson with h | h | h
  · exact Or.inl (of_decide_eq_true (band_left h))
  · exact Or.inr (Or.inl (of_decide_eq_true (band_left h)))
  · exact Or.inr (Or.inr (of_decide_eq_true (band_left h)))

/-! ### The three non-trivial branches of `normalizeOutput` -/

theorem normalizeOutput_json {s : String} (hjson : looksJsonLike (jsTrim s) = true) :
    normalizeOutput s =
      (match jsonParse (jsTrim s) with
       | some v => jsonStringify v
       | none => jsTrim s) := by
  have hhead := looksJsonLike_head hjson
  have hne1 : jsTrim s ≠ "null" := by
    intro hc
    rw [hc] at hhead
    rcases hhead with h | h | h <;> exact absurd h (by decide)
  have hne2 : jsTrim s ≠ "true" := by
    intro hc
    rw [hc] at hhead
    rcases hhead with h | h | h <;> exact absurd h (by decide)
  have hne3 : jsTrim s ≠ "false" := by
    intro hc
    rw [hc] at hhead
    rcases hhead with h | h | h <;> exact absurd h (by decide)
  have hnum : numRe (jsTrim s).data = none := by
    rcases hhead with h | h | h
    · exact numRe_none_head h (by decide) (by decide)
    · exact numRe_none_head h (by decide) (by decide)
    · exact numRe_none_head h (by decide) (by decide)
  rw [normalizeOutput_eval, if_neg hne1, if_neg hne2, if_neg hne3, hnum, hjson]
  rfl

theorem normalizeOutput_default {s : String} (h1 : jsTrim s ≠ "null")
    (h2 : jsTrim s ≠ "true") (h3 : jsTrim s ≠ "false")
    (h4 : numRe (jsTrim s).data = none) (h5 : looksJsonLike (jsTrim s) = false) :
    normalizeOutput s = jsTrim s := by
  rw [normalizeOutput_eval, if_neg h1, if_neg h2, if_neg h3, h4, h5]
  rfl

theorem normalizeOutput_canon {cs : List Char} {p : NumParts} (h : numRe cs = some p) :
    normalizeOutput (jsNumCanon p) = jsNumCanon p := by
  obtain ⟨hipne, hipd, hfpd⟩ := numRe_digits h
  have hds : ∀ c ∈ p.ip ++ p.fp, c.isDigit := by
    intro c hc
    rcases List.mem_append.mp hc with hc | hc
    exacts [hipd c hc, hfpd c hc]
  have hgood : goodParts (canonParts p.neg (p.ip ++ p.fp) p.ip.length) :=
    goodParts_canonParts _ _ _ hds
  set q := canonParts p.neg (p.ip ++ p.fp) p.ip.length with hq
  have hjs : jsNumCanon p = String.mk (renderNum q) := rfl
  have hchars : ∀ ch ∈ renderNum q, isJsWhite ch = false := by
    intro ch hch
    rcases renderNum_chars hgood.2.1 hgood.2.2.1 ch hch with hc | hc | hc
    · rw [hc]; exact isJsWhite_dash
    · rw [hc]; exact isJsWhite_dot
    · exact isJsWhite_eq_false_of_digit hc
  have htrim : jsTrim (String.mk (renderNum q)) = String.mk (renderNum q) :=
    String.eq_of_data_eq (jsTrimL_eq_self_of_all hchars)
  obtain ⟨d, hd, hdor⟩ := renderNum_head hgood
  have hdne : d ≠ 'n' ∧ d ≠ 't' ∧ d ≠ 'f' := by
    rcases hdor with hc | hc
    · subst hc; exact ⟨by decide, by decide, by decide⟩
    · obtain ⟨ha, hb⟩ := isDigit_toNat hc
      refine ⟨?_, ?_, ?_⟩ <;> (intro hcc; subst hcc; revert ha hb; decide)
  have hne : ∀ (lit : String) (c0 : Char), lit.data.head? = some c0 → d ≠ c0 →
      String.mk (renderNum q) ≠ lit := by
    intro lit c0 hlit hdc hc
    apply hdc
    have hdata : renderNum q = lit.data := congrArg String.data hc
    rw [hdata, hlit] at hd
    exact (Option.some.inj hd).symm
  rw [hjs, normalizeOutput_eval, htrim,
    if_neg (hne "null" 'n' rfl hdne.1), if_neg (hne "true" 't' rfl hdne.2.1),
    if_neg (hne "false" 'f' rfl hdne.2.2)]
  rw [show (String.mk (renderNum q)).data = renderNum q from rfl, numRe_renderNum hgood]
  show jsNumCanon q = String.mk (renderNum q)
  rw [jsNumCanon, canonParts_of_good hgood]

theorem normalizeOutput_wrapped {v : JVal} (hwf : wfVal v = true)
    {c0 c1 : Char} {mid : List Char}
    (hpr : printVal v = c0 :: (mid ++ [c1]))
    (hshape : (c0 = '{' ∧ c1 = '}') ∨ (c0 = '[' ∧ c1 = ']') ∨ (c0 = '"' ∧ c1 = '"')) :
    normalizeOutput (jsonStringify v) = jsonStringify v := by
  have hc0ws : isJsWhite c0 = false := by
    rcases hshape with ⟨h, -⟩ | ⟨h, -⟩ | ⟨h, -⟩ <;> (subst h; decide)
  have hc1ws : isJsWhite c1 = false := by
    rcases hshape with ⟨-, h⟩ | ⟨-, h⟩ | ⟨-, h⟩ <;> (subst h; decide)
  have hc0d : c0.isDigit = false := by
    rcases hshape with ⟨h, -⟩ | ⟨h, -⟩ | ⟨h, -⟩ <;> (subst h; decide)
  have hc0m : c0 ≠ '-' := by
    rcases hshape with ⟨h, -⟩ | ⟨h, -⟩ | ⟨h, -⟩ <;> (subst h; decide)
  have hc0n : c0 ≠ 'n' ∧ c0 ≠ 't' ∧ c0 ≠ 'f' := by
    rcases hshape with ⟨h, -⟩ | ⟨h, -⟩ | ⟨h, -⟩ <;> (subst h; decide)
  have hdata : (jsonStringify v).data = c0 :: (mid ++ [c1]) := hpr
  have hhead : (jsonStringify v).data.head? = some c0 := by rw [hdata]; rfl
  have hlast : (jsonStringify v).data.getLast? = some c1 := by
    rw [hdata, show c0 :: (mid ++ [c1]) = (c0 :: mid) ++ [c1] from rfl]
    exact getLast?_append_right (c0 :: mid) rfl
  have htrim : jsTrim (jsonStringify v) = jsonStringify v := by
    refine jsTrim_eq_self_of_ends ?_ ?_
    · intro c hc
      rw [hhead] at hc
      have hcc := Option.some.inj hc
      rw [← hcc]
      exact hc0ws
    · intro c hc
      rw [hlast] at hc
      have hcc := Option.some.inj hc
      rw [← hcc]
      exact hc1ws
  have hne1 : jsonStringify v ≠ "null" := by
    intro hc
    rw [hc] at hhead
    have h2 : some 'n' = some c0 := hhead
    exact hc0n.1 (Option.some.inj h2).symm
  have hne2 : jsonStringify v ≠ "true" := by
    intro hc
    rw [hc] at hhead
    have h2 : some 't' = some c0 := hhead
    exact hc0n.2.1 (Option.some.inj h2).symm
  have hne3 : jsonStringify v ≠ "false" := by
    intro hc
    rw [hc] at hhead
    have h2 : some 'f' = some c0 := hhead
    exact hc0n.2.2 (Option.some.inj h2).symm
  have hnum : numRe (jsonStringify v).data = none := numRe_none_head hhead hc0d hc0m
  have hjson : looksJsonLike (jsonStringify v) = true := by
    rw [looksJsonLike, htrim]
    have hh : ∀ c : Char, strHeadIs (jsonStringify v) c = decide (some c0 = some c) := by
      intro c
      rw [strHeadIs, hhead]
    have hl : ∀ c : Char, strLastIs (jsonStringify v) c = decide (some c1 = some c) := by
      intro c
      rw [strLastIs, hlast]
    rw [hh, hh, hh, hl, hl, hl]
    rcases hshape with ⟨h0, h1⟩ | ⟨h0, h1⟩ | ⟨h0, h1⟩ <;> subst h0 <;> subst h1 <;> decide
  have hparse : jsonParse (jsonStringify v) = some v := jsonParse_stringify hwf
  rw [normalizeOutput_json (by rw [htrim]; exact hjson), htrim, hparse]

theorem normalizeOutput_json_idem {s : String} (hjson : looksJsonLike (jsTrim s) = true) :
    normalizeOutput (normalizeOutput s) = normalizeOutput s := by
  have hn := normalizeOutput_json hjson
  cases hparse : jsonParse (jsTrim s) with
  | none =>
    have hs : normalizeOutput s = jsTrim s := by rw [hn, hparse]
    rw [hs, normalizeOutput_json (by rw [jsTrim_idem]; exact hjson), jsTrim_idem, hparse]
  | some v =>
    have hs : normalizeOutput s = jsonStringify v := by rw [hn, hparse]
    rw [hs]
    have hwf : wfVal v = true := jsonParse_wf hparse
    rcases looksJsonLike_head hjson with h | h | h
    · obtain ⟨t, ht⟩ : ∃ t, (jsTrim s).data = '{' :: t := by
        cases hdat : (jsTrim s).data with
        | nil => rw [hdat] at h; exact absurd h (by simp)
        | cons a u =>
          rw [hdat] at h
          have h2 : some a = some '{' := h
          exact ⟨u, by rw [Option.some.inj h2]⟩
      obtain ⟨kvs, rfl⟩ := jsonParse_obj ht hparse
      exact normalizeOutput_wrapped hwf
        (show printVal (.obj kvs) = '{' :: (printMembers kvs ++ ['}']) from rfl)
        (Or.inl ⟨rfl, rfl⟩)
    · obtain ⟨t, ht⟩ : ∃ t, (jsTrim s).data = '[' :: t := by
        cases hdat : (jsTrim s).data with
        | nil => rw [hdat] at h; exact absurd h (by simp)
        | cons a u =>
          rw [hdat] at h
          have h2 : some a = some '[' := h
          exact ⟨u, by rw [Option.some.inj h2]⟩
      obtain ⟨xs, rfl⟩ := jsonParse_arr ht hparse
      exact normalizeOutput_wrapped hwf
        (show printVal (.arr xs) = '[' :: (printElems xs ++ [']']) from rfl)
        (Or.inr (Or.inl ⟨rfl, rfl⟩))
    · obtain ⟨t, ht⟩ : ∃ t, (jsTrim s).data = '"' :: t := by
        cases hdat : (jsTrim s).data with
        | nil => rw [hdat] at h; exact absurd h (by simp)
        | cons a u =>
          rw [hdat] at h
          have h2 : some a = some '"' := h
          exact ⟨u, by rw [Option.some.inj h2]⟩
      obtain ⟨sc, rfl⟩ := jsonParse_str ht hparse
      exact normalizeOutput_wrapped hwf
        (show printVal (.str sc) = '"' :: (escStr sc.data ++ ['"']) from rfl)
        (Or.inr (Or.inr ⟨rfl, rfl⟩))

theorem normalizeOutput_idem (s : String) :
    normalizeOutput (normalizeOutput s) = normalizeOutput s := by
  by_cases h1 : jsTrim s = "null"
  · have hs : normalizeOutput s = "null" := by rw [normalizeOutput_eval, if_pos h1]
    rw [hs]
    rfl
  · by_cases h2 : jsTrim s = "true"
    · have hs : normalizeOutput s = "true" := by
        rw [normalizeOutput_eval, if_neg h1, if_pos h2]
      rw [hs]
      rfl
    · by_cases h3 : jsTrim s = "false"
      · have hs : normalizeOutput s = "false" := by
          rw [normalizeOutput_eval, if_neg h1, if_neg h2, if_pos h3]
        rw [hs]
        rfl
      · cases hnum : numRe (jsTrim s).data with
        | some p =>
          have hs : normalizeOutput s = jsNumCanon p := by
            rw [normalizeOutput_eval, if_neg h1, if_neg h2, if_neg h3, hnum]
          rw [hs]
          exact normalizeOutput_canon hnum
        | none =>
          by_cases hjson : looksJsonLike (jsTrim s) = true
          · exact normalizeOutput_json_idem hjson
          · have hj : looksJsonLike (jsTrim s) = false := by
              revert hjson
              cases looksJsonLike (jsTrim s) <;> simp
            have hs : normalizeOutput s = jsTrim s :=
              normalizeOutput_default h1 h2 h3 hnum hj
            rw [hs]
            have h1i : jsTrim (jsTrim s) ≠ "null" := by rw [jsTrim_idem]; exact h1
            have h2i : jsTrim (jsTrim s) ≠ "true" := by rw [jsTrim_idem]; exact h2
            have h3i : jsTrim (jsTrim s) ≠ "false" := by rw [jsTrim_idem]; exact h3
            have h4i : numRe (jsTrim (jsTrim s)).data = none := by
              rw [jsTrim_idem]; exact hnum
            have h5i : looksJsonLike (jsTrim (jsTrim s)) = false := by
              rw [jsTrim_idem]; exact hj
            have hres := normalizeOutput_default h1i h2i h3i h4i h5i
            rw [jsTrim_idem] at hres
            exact hres

/-- C2: `normalizeOutput` is idempotent — applying it twice equals applying it
once — and canonicalises: `"01"` and `"1"` both normalise to `"1"` and
`"  true  "` to `"true"`; an input whose trimmed form is shaped like a JSON
object, array or quoted string is replaced by the compact
`JSON.stringify(JSON.parse(...))` re-serialisation, keeping the trimmed
original when parsing fails; every other input is returned trimmed and
otherwise unchanged. -/
theorem C2_normalizeOutput_idempotent :
    (∀ s : String, normalizeOutput (normalizeOutput s) = normalizeOutput s) ∧
    (normalizeOutput "01" = "1" ∧ normalizeOutput "1" = "1" ∧
      normalizeOutput "  true  " = "true") ∧
    (∀ s : String, looksJsonLike (jsTrim s) = true →
      normalizeOutput s =
        (match jsonParse (jsTrim s) with
         | some v => jsonStringify v
         | none => jsTrim s)) ∧
    (∀ s : String, jsTrim s ≠ "null" → jsTrim s ≠ "true" → jsTrim s ≠ "false" →
      numRe (jsTrim s).data = none → looksJsonLike (jsTrim s) = false →
      normalizeOutput s = jsTrim s) :=
  ⟨normalizeOutput_idem, ⟨rfl, rfl, rfl⟩,
    fun _ h => normalizeOutput_json h,
    fun _ h1 h2 h3 h4 h5 => normalizeOutput_default h1 h2 h3 h4 h5⟩

theorem C2_normalizeOutput_idempotent_witness :
    looksJsonLike (jsTrim " [1, 2.50] ") = true ∧
    normalizeOutput " [1, 2.50] " = "[1,2.5]" :=
  ⟨rfl, (C2_normalizeOutput_idempotent.2.2.1 " [1, 2.50] " rfl).trans rfl⟩

/-! ## Execution gateway (`POST /api/run`)

Model of the per-case processing loop of `src/app/api/run/route.js`.

A test case arriving in the request body is modelled by `TestCaseIn`;
each field is `none` when the property is nullish (absent, `null` or
`undefined`) — exactly the values the source's `??` defaults replace —
and `some v` when a non-nullish JSON value is present.  A list element
that is not an object behaves identically to `{}` in the source
(`casesToRun[i] || {}` plus property access on a primitive), so it is
modelled by the all-`none` case. -/

def MAX_INPUT_CHARS : Nat := 4000
def MAX_CASES_RUN : Nat := 12
def MAX_STDOUT_CHARS : Nat := 8000

mutual

/-- JavaScript `String(v)` for a JSON value (exact decimal semantics for
numbers; arrays join their elements with `,`, nullish elements joining as
the empty string; objects print as `[object Object]`). -/
def jsToString : JVal → String
  | .null => "null"
  | .bool true => "true"
  | .bool false => "false"
  | .num c => c
  | .str s => s
  | .arr xs => String.mk (jsJoin xs)
  | .obj _ => "[object Object]"

/-- `Array.prototype.join(",")`. -/
def jsJoin : List JVal → List Char
  | [] => []
  | [v] =>
    (match v with
     | .null => []
     | w => (jsToString w).data)
  | v :: vs =>
    (match v with
     | .null => []
     | w => (jsToString w).data) ++ ',' :: jsJoin vs

end

example : jsToString (.arr [.num "1", .null, .str "a", .arr [.bool true]]) = "1,,a,true" := rfl
example : jsToString (.obj [("a", .num "1")]) = "[object Object]" := rfl

/-- One test case of the request body (nullish fields are `none`). -/
structure TestCaseIn where
  name : Option JVal
  input : Option JVal
  expectedOutput : Option JVal

/-- `tc.name ?? `Case ${i + 1}``. -/
def tcName (i : Nat) (tc : TestCaseIn) : JVal :=
  match tc.name with
  | some v => v
  | none => .str ("Case " ++ toString (i + 1))

/-- `String(tc.input ?? "null")`. -/
def tcInput (tc : TestCaseIn) : String :=
  match tc.input with
  | some v => jsToString v
  | none => "null"

/-- `String(tc.expectedOutput ?? "")`. -/
def tcExpected (tc : TestCaseIn) : String :=
  match tc.expectedOutput with
  | some v => jsToString v
  | none => ""

/-- The `run` object of a resolved Piston response (fields may be absent). -/
structure PistonRun where
  stdout : Option String
  stderr : Option String
  code : Option Int

/-- Outcome of `runOnPiston`: the fetch either throws (recorded message
`String(e?.message || e)`) or resolves, possibly without a `run` object. -/
inductive SandboxOutcome where
  | err (msg : String)
  | ok (run : Option PistonRun)

/-- `piston?.run?.stdout ?? ""`. -/
def pistonStdout (run : Option PistonRun) : String :=
  match run with
  | some r => r.stdout.getD ""
  | none => ""

/-- `piston?.run?.stderr ?? ""`. -/
def pistonStderr (run : Option PistonRun) : String :=
  match run with
  | some r => r.stderr.getD ""
  | none => ""

/-- `piston?.run?.code ?? 0`. -/
def pistonExitCode (run : Option PistonRun) : Int :=
  match run with
  | some r => r.code.getD 0
  | none => 0

/-- `hidden: mode === "submit" && i >= visible.length`. -/
def caseHidden (mode : String) (visLen i : Nat) : Bool :=
  decide (mode = "submit") && decide (visLen ≤ i)

/-- One per-case result record pushed onto `results`. -/
structure CaseResult where
  name : JVal
  passed : Bool
  expectedOutput : String
  actualOutput : String
  stderr : String
  exitCode : Int
  runtimeMs : Nat
  hidden : Bool

/-- `stdout.slice(0, MAX_STDOUT_CHARS) + "\n...[truncated]"` when over the
limit, else the trimmed stdout unchanged. -/
def truncStdout (s : String) : String :=
  if MAX_STDOUT_CHARS < s.length then
    String.mk (s.data.take MAX_STDOUT_CHARS) ++ "\n...[truncated]"
  else s

/-- One iteration of the `for` loop over `casesToRun`: the produced result
record, paired with whether the sandbox was called for this case (the
source's local bindings are inlined). -/
def processCase (mode : String) (visLen i : Nat) (tc : TestCaseIn)
    (sandbox : SandboxOutcome) (ms : Nat) : CaseResult × Bool :=
  if MAX_INPUT_CHARS < (tcInput tc).length then
    (⟨tcName i tc, false, tcExpected tc, "", "Input too large.", 1, 0,
      caseHidden mode visLen i⟩, false)
  else if (jsonParse (tcInput tc)).isNone then
    (⟨tcName i tc, false, tcExpected tc, "", "Testcase input is not valid JSON.", 1, 0,
      caseHidden mode visLen i⟩, false)
  else
    match sandbox with
    | .err msg =>
      (⟨tcName i tc, false, tcExpected tc, "", msg, 1, ms, caseHidden mode visLen i⟩, true)
    | .ok run =>
      (⟨tcName i tc,
        decide (pistonExitCode run = 0) &&
          decide (normalizeOutput (truncStdout (jsTrim (pistonStdout run))) =
            normalizeOutput (tcExpected tc)),
        tcExpected tc, truncStdout (jsTrim (pistonStdout run)),
        jsTrim (pistonStderr run), pistonExitCode run, ms,
        caseHidden mode visLen i⟩, true)

/-- `mode === "submit" ? [...visible, ...hidden] : [...visible]`. -/
def casesToRun (mode : String) (visible hid : List TestCaseIn) : List TestCaseIn :=
  if mode = "submit" then visible ++ hid else visible

/-- The whole `for` loop: every case at index `< min(length, 12)` is
processed, each with its own sandbox outcome and elapsed time. -/
def runCases (mode : String) (visible hid : List TestCaseIn)
    (sandbox : Nat → SandboxOutcome) (elapsed : Nat → Nat) : List (CaseResult × Bool) :=
  ((casesToRun mode visible hid).take MAX_CASES_RUN).enum.map
    (fun p => processCase mode visible.length p.1 p.2 (sandbox p.1) (elapsed p.1))

/-- The JSON body of the 200 response. -/
structure RunResponse where
  mode : String
  passedCount : Nat
  total : Nat
  allPassed : Bool
  results : List CaseResult

/-- The response assembled after the loop (`passedCount` is incremented
exactly on results pushed with `passed: true`). -/
def postResponse (mode : String) (visible hid : List TestCaseIn)
    (sandbox : Nat → SandboxOutcome) (elapsed : Nat → Nat) : RunResponse :=
  let rs := (runCases mode visible hid sandbox elapsed).map Prod.fst
  ⟨mode, rs.countP (fun r => r.passed), rs.length,
    decide (rs.countP (fun r => r.passed) = rs.length), rs⟩

/-! ### Run-route lemmas and claims C1, C3, C4, C9 -/

theorem processCase_hidden (mode : String) (visLen i : Nat) (tc : TestCaseIn)
    (sb : SandboxOutcome) (ms : Nat) :
    (processCase mode visLen i tc sb ms).1.hidden = caseHidden mode visLen i := by
  rw [processCase.eq_def]
  split
  · rfl
  · split
    · rfl
    · cases sb <;> rfl

theorem processCase_sandbox_used {mode : String} {visLen i : Nat} {tc : TestCaseIn}
    {sb : SandboxOutcome} {ms : Nat}
    (h : (processCase mode visLen i tc sb ms).2 = true) :
    ¬MAX_INPUT_CHARS < (tcInput tc).length ∧ ¬(jsonParse (tcInput tc)).isNone = true := by
  by_cases hc1 : MAX_INPUT_CHARS < (tcInput tc).length
  · rw [processCase.eq_def, if_pos hc1] at h
    exact absurd h (by simp)
  · by_cases hc2 : (jsonParse (tcInput tc)).isNone = true
    · rw [processCase.eq_def, if_neg hc1, if_pos hc2] at h
      exact absurd h (by simp)
    · exact ⟨hc1, hc2⟩

theorem processCase_ok {mode : String} {visLen i : Nat} {tc : TestCaseIn}
    {run : Option PistonRun} {ms : Nat}
    (hc1 : ¬MAX_INPUT_CHARS < (tcInput tc).length)
    (hc2 : ¬(jsonParse (tcInput tc)).isNone = true) :
    processCase mode visLen i tc (.ok run) ms =
      (⟨tcName i tc,
        decide (pistonExitCode run = 0) &&
          decide (normalizeOutput (truncStdout (jsTrim (pistonStdout run))) =
            normalizeOutput (tcExpected tc)),
        tcExpected tc, truncStdout (jsTrim (pistonStdout run)),
        jsTrim (pistonStderr run), pistonExitCode run, ms,
        caseHidden mode visLen i⟩, true) := by
  rw [processCase.eq_def, if_neg hc1, if_neg hc2]

/-- C1: for every test case that reaches the sandbox (input within the size
limit and valid JSON, Piston resolved), the recorded `passed` is true if and
only if the reported exit code (defaulted to 0 when absent) equals 0 and the
normalisation of the captured — trimmed, possibly truncated — stdout equals
the normalisation of the case's expected-output string. -/
theorem C1_passed_iff (mode : String) (visLen i : Nat) (tc : TestCaseIn)
    (run : Option PistonRun) (ms : Nat)
    (h : (processCase mode visLen i tc (.ok run) ms).2 = true) :
    ((processCase mode visLen i tc (.ok run) ms).1.passed = true ↔
      (pistonExitCode run = 0 ∧
        normalizeOutput (processCase mode visLen i tc (.ok run) ms).1.actualOutput =
          normalizeOutput (tcExpected tc))) := by
  obtain ⟨hc1, hc2⟩ := processCase_sandbox_used h
  rw [processCase_ok hc1 hc2]
  simp [Bool.and_eq_true, decide_eq_true_eq]

theorem C1_passed_iff_witness :
    (processCase "run" 0 0 ⟨none, some (.num "1"), some (.num "4")⟩
        (.ok (some ⟨some "4", some "", some 0⟩)) 5).2 = true ∧
    (processCase "run" 0 0 ⟨none, some (.num "1"), some (.num "4")⟩
        (.ok (some ⟨some "4", some "", some 0⟩)) 5).1.passed = true ∧
    (processCase "run" 0 0 ⟨none, some (.num "1"), some (.num "4")⟩
        (.ok (some ⟨some "4", some "", some 1⟩)) 5).1.passed = false :=
  ⟨rfl,
    (C1_passed_iff "run" 0 0 ⟨none, some (.num "1"), some (.num "4")⟩
      (some ⟨some "4", some "", some 0⟩) 5 rfl).mpr ⟨rfl, rfl⟩,
    rfl⟩

theorem runCases_length (mode : String) (visible hid : List TestCaseIn)
    (sandbox : Nat → SandboxOutcome) (elapsed : Nat → Nat) :
    (runCases mode visible hid sandbox elapsed).length =
      min (casesToRun mode visible hid).length MAX_CASES_RUN := by
  simp [runCases, Nat.min_comm]

theorem runCases_get (mode : String) (visible hid : List TestCaseIn)
    (sandbox : Nat → SandboxOutcome) (elapsed : Nat → Nat) (i : Nat)
    (hi2 : i < (casesToRun mode visible hid).length)
    (hi : i < (runCases mode visible hid sandbox elapsed).length) :
    (runCases mode visible hid sandbox elapsed)[i] =
      processCase mode visible.length i ((casesToRun mode visible hid)[i])
        (sandbox i) (elapsed i) := by
  simp only [runCases, List.getElem_map, List.getElem_enum, List.getElem_take]

theorem postResponse_results (mode : String) (visible hid : List TestCaseIn)
    (sandbox : Nat → SandboxOutcome) (elapsed : Nat → Nat) :
    (postResponse mode visible hid sandbox elapsed).results =
      (runCases mode visible hid sandbox elapsed).map Prod.fst := rfl

theorem postResponse_total (mode : String) (visible hid : List TestCaseIn)
    (sandbox : Nat → SandboxOutcome) (elapsed : Nat → Nat) :
    (postResponse mode visible hid sandbox elapsed).total =
      (runCases mode visible hid sandbox elapsed).length := by
  rw [postResponse]
  simp

/-- C3: when `mode` is `"submit"` the visible and hidden lists are
concatenated and at most 12 cases are processed; otherwise only the visible
list is used; `total` is the number of processed results, the `hidden` flag
is true exactly on submit-mode indices at or past the visible count, the
`i`-th result is the processed `i`-th element of the concatenated list, and
`allPassed` is exactly `passedCount = total`. -/
theorem C3_mode_gating (mode : String) (visible hid : List TestCaseIn)
    (sandbox : Nat → SandboxOutcome) (elapsed : Nat → Nat) :
    (mode = "submit" → casesToRun mode visible hid = visible ++ hid ∧
      (postResponse mode visible hid sandbox elapsed).total =
        min (visible.length + hid.length) MAX_CASES_RUN) ∧
    (mode ≠ "submit" → casesToRun mode visible hid = visible ∧
      (postResponse mode visible hid sandbox elapsed).total =
        min visible.length MAX_CASES_RUN ∧
      ∀ r ∈ (postResponse mode visible hid sandbox elapsed).results, r.hidden = false) ∧
    ((postResponse mode visible hid sandbox elapsed).total =
      (postResponse mode visible hid sandbox elapsed).results.length) ∧
    (∀ i, ∀ hi : i < (postResponse mode visible hid sandbox elapsed).results.length,
      ((postResponse mode visible hid sandbox elapsed).results[i]).hidden =
        (decide (mode = "submit") && decide (visible.length ≤ i))) ∧
    (∀ i, ∀ hi2 : i < (casesToRun mode visible hid).length,
      ∀ hi : i < (postResponse mode visible hid sandbox elapsed).results.length,
      (postResponse mode visible hid sandbox elapsed).results[i] =
        (processCase mode visible.length i ((casesToRun mode visible hid)[i])
          (sandbox i) (elapsed i)).1) ∧
    ((postResponse mode visible hid sandbox elapsed).allPassed =
      decide ((postResponse mode visible hid sandbox elapsed).passedCount =
        (postResponse mode visible hid sandbox elapsed).total)) := by
  have hlen : (postResponse mode visible hid sandbox elapsed).results.length =
      (runCases mode visible hid sandbox elapsed).length := by
    rw [postResponse_results, List.length_map]
  have hget : ∀ i, ∀ hi2 : i < (casesToRun mode visible hid).length,
      ∀ hi : i < (postResponse mode visible hid sandbox elapsed).results.length,
      (postResponse mode visible hid sandbox elapsed).results[i] =
        (processCase mode visible.length i ((casesToRun mode visible hid)[i])
          (sandbox i) (elapsed i)).1 := by
    intro i hi2 hi
    have hi3 : i < (runCases mode visible hid sandbox elapsed).length := by
      rw [← hlen]; exact hi
    have h2 := runCases_get mode visible hid sandbox elapsed i hi2 hi3
    calc (postResponse mode visible hid sandbox elapsed).results[i]
        = ((runCases mode visible hid sandbox elapsed).map Prod.fst)[i] := by
          simp only [postResponse_results]
      _ = (runCases mode visible hid sandbox elapsed)[i].1 := by
          simp only [List.getElem_map]
      _ = _ := by rw [h2]
  refine ⟨fun hm => ⟨by rw [casesToRun, if_pos hm], ?_⟩,
    fun hm => ⟨by rw [casesToRun, if_neg hm], ?_, ?_⟩, ?_, ?_, hget, rfl⟩
  · rw [postResponse_total, runCases_length, casesToRun, if_pos hm, List.length_append]
  · rw [postResponse_total, runCases_length, casesToRun, if_neg hm]
  · intro r hr
    rw [postResponse_results, List.mem_map] at hr
    obtain ⟨pr, hpr, hr⟩ := hr
    rw [runCases, List.mem_map] at hpr
    obtain ⟨q, hq, hq2⟩ := hpr
    rw [← hr, ← hq2, processCase_hidden, caseHidden]
    simp [hm]
  · rw [postResponse_total, hlen]
  · intro i hi
    have hi3 : i < (runCases mode visible hid sandbox elapsed).length := by
      rw [← hlen]; exact hi
    have hi2 : i < (casesToRun mode visible hid).length := by
      rw [runCases_length] at hi3
      omega
    rw [hget i hi2 hi, processCase_hidden, caseHidden]

theorem C3_mode_gating_witness :
    (postResponse "run" [⟨none, none, none⟩, ⟨none, none, none⟩] [⟨none, none, none⟩]
      (fun _ => .ok none) (fun _ => 0)).total = 2 ∧
    (postResponse "submit" [⟨none, none, none⟩, ⟨none, none, none⟩] [⟨none, none, none⟩]
      (fun _ => .ok none) (fun _ => 0)).total = 3 :=
  ⟨((C3_mode_gating "run" [⟨none, none, none⟩, ⟨none, none, none⟩] [⟨none, none, none⟩]
      (fun _ => .ok none) (fun _ => 0)).2.1 (by decide)).2.1.trans rfl,
    ((C3_mode_gating "submit" [⟨none, none, none⟩, ⟨none, none, none⟩] [⟨none, none, none⟩]
      (fun _ => .ok none) (fun _ => 0)).1 rfl).2.trans rfl⟩

/-- C4: a case whose input string exceeds 4000 characters, or whose input is
not valid JSON, is recorded as an immediate failure (`passed:false`,
`exitCode:1`, `runtimeMs:0`, empty `actualOutput`) with stderr exactly
`"Input too large."` respectively `"Testcase input is not valid JSON."`,
without calling the sandbox; and failures are isolated: the loop always
processes every index below `min(length, 12)`, each result depending only on
its own case's data and sandbox outcome. -/
theorem C4_early_failures (mode : String) (visLen i : Nat) (tc : TestCaseIn)
    (sb : SandboxOutcome) (ms : Nat) :
    (MAX_INPUT_CHARS < (tcInput tc).length →
      processCase mode visLen i tc sb ms =
        (⟨tcName i tc, false, tcExpected tc, "", "Input too large.", 1, 0,
          caseHidden mode visLen i⟩, false)) ∧
    ((tcInput tc).length ≤ MAX_INPUT_CHARS → jsonParse (tcInput tc) = none →
      processCase mode visLen i tc sb ms =
        (⟨tcName i tc, false, tcExpected tc, "", "Testcase input is not valid JSON.", 1,
          0, caseHidden mode visLen i⟩, false)) ∧
    (∀ (visible hid : List TestCaseIn) (sandbox : Nat → SandboxOutcome)
        (elapsed : Nat → Nat),
      (runCases mode visible hid sandbox elapsed).length =
        min (casesToRun mode visible hid).length MAX_CASES_RUN ∧
      ∀ j, ∀ hj2 : j < (casesToRun mode visible hid).length,
        ∀ hj : j < (runCases mode visible hid sandbox elapsed).length,
        (runCases mode visible hid sandbox elapsed)[j] =
          processCase mode visible.length j ((casesToRun mode visible hid)[j])
            (sandbox j) (elapsed j)) := by
  refine ⟨fun h => ?_, fun h1 h2 => ?_,
    fun visible hid sandbox elapsed =>
      ⟨runCases_length mode visible hid sandbox elapsed,
       fun j hj2 hj => runCases_get mode visible hid sandbox elapsed j hj2 hj⟩⟩
  · rw [processCase.eq_def, if_pos h]
  · rw [processCase.eq_def, if_neg (by omega : ¬MAX_INPUT_CHARS < (tcInput tc).length),
      if_pos (by rw [h2]; rfl)]

theorem C4_early_failures_witness :
    (4000 < (tcInput ⟨none, some (.str (String.mk (List.replicate 4001 'a'))), none⟩).length ∧
      processCase "run" 1 1 ⟨none, some (.str (String.mk (List.replicate 4001 'a'))), none⟩
          (.ok none) 7 =
        (⟨.str "Case 2", false, "", "", "Input too large.", 1, 0, false⟩, false)) ∧
    (processCase "submit" 0 0 ⟨none, some (.str "not json"), none⟩ (.err "boom") 7 =
      (⟨.str "Case 1", false, "", "", "Testcase input is not valid JSON.", 1, 0, true⟩,
        false)) := by
  have hlen : (tcInput
      ⟨none, some (.str (String.mk (List.replicate 4001 'a'))), none⟩).length = 4001 := by
    rw [tcInput]
    show (String.mk (List.replicate 4001 'a')).length = 4001
    rw [show (String.mk (List.replicate 4001 'a')).length
        = (List.replicate 4001 'a').length from rfl, List.length_replicate]
  refine ⟨⟨by rw [hlen]; decide, ?_⟩, ?_⟩
  · have h := (C4_early_failures "run" 1 1
      ⟨none, some (.str (String.mk (List.replicate 4001 'a'))), none⟩ (.ok none) 7).1
      (by rw [hlen]; decide)
    rw [h]
    rfl
  · have h := (C4_early_failures "submit" 0 0
      ⟨none, some (.str "not json"), none⟩ (.err "boom") 7).2.1 (by decide) rfl
    rw [h]
    rfl

/-- C9: a nullish `input` field is executed as the string `"null"`, which
always passes the JSON-validity check (so the case reaches the sandbox
whenever its other checks pass); a nullish `expectedOutput` is compared as
the empty string; and an absent `name` defaults to `"Case N"` with `N` the
1-indexed position in the executed case list. -/
theorem C9_nullish_defaults (mode : String) (visLen i : Nat) (tc : TestCaseIn)
    (sb : SandboxOutcome) (ms : Nat) :
    (tc.input = none →
      tcInput tc = "null" ∧ jsonParse (tcInput tc) = some .null ∧
      (processCase mode visLen i tc sb ms).2 = true) ∧
    (tc.expectedOutput = none → tcExpected tc = "") ∧
    (tc.name = none → tcName i tc = .str ("Case " ++ toString (i + 1))) := by
  refine ⟨fun h => ?_, fun h => by rw [tcExpected, h], fun h => by rw [tcName, h]⟩
  have h1 : tcInput tc = "null" := by rw [tcInput, h]
  refine ⟨h1, by rw [h1]; rfl, ?_⟩
  rw [processCase.eq_def, if_neg (by rw [h1]; decide), if_neg (by rw [h1]; decide)]
  cases sb <;> rfl

theorem C9_nullish_defaults_witness :
    tcInput ⟨none, none, none⟩ = "null" ∧
    jsonParse "null" = some .null ∧
    tcExpected ⟨none, none, none⟩ = "" ∧
    tcName 0 ⟨none, none, none⟩ = .str "Case 1" ∧
    (processCase "run" 0 0 ⟨none, none, none⟩ (.ok none) 3).2 = true := by
  have h := C9_nullish_defaults "run" 0 0 ⟨none, none, none⟩ (.ok none) 3
  exact ⟨(h.1 rfl).1, rfl, h.2.1 rfl, (h.2.2 rfl).trans rfl, (h.1 rfl).2.2⟩

/-! ## In-memory rate limiter (`src/app/lib/limiter.js`)

`buckets` is modelled as a map `String → Option Bucket`; `rateLimit`
returns its result together with the updated map (the source mutates the
shared `Map` in place).  Timestamps are integers (`Date.now()`). -/

structure Bucket where
  count : Nat
  resetAt : Int
  deriving DecidableEq, Repr

structure RateLimitResult where
  allowed : Bool
  remaining : Nat
  resetAt : Int
  deriving DecidableEq, Repr

/-- Model of `rateLimit({key, limit, windowMs})` at time `now`.
`Math.max(0, limit - count)` is truncated subtraction on `Nat`. -/
def rateLimit (key : String) (limit : Nat) (windowMs now : Int)
    (buckets : String → Option Bucket) :
    RateLimitResult × (String → Option Bucket) :=
  let bucket0 := (buckets key).getD ⟨0, now + windowMs⟩
  let bucket1 := if bucket0.resetAt < now then (⟨0, now + windowMs⟩ : Bucket) else bucket0
  let bucket2 : Bucket := ⟨bucket1.count + 1, bucket1.resetAt⟩
  (⟨decide (bucket2.count ≤ limit), limit - bucket2.count, bucket2.resetAt⟩,
    fun k => if k = key then some bucket2 else buckets k)

/-- A sequence of `rateLimit` calls at the given times, threading the
bucket map through. -/
def rateLimitSeq (key : String) (limit : Nat) (windowMs : Int) :
    List Int → (String → Option Bucket) →
    List RateLimitResult × (String → Option Bucket)
  | [], buckets => ([], buckets)
  | t :: ts, buckets =>
    ((rateLimit key limit windowMs t buckets).1 ::
        (rateLimitSeq key limit windowMs ts ((rateLimit key limit windowMs t buckets).2)).1,
      (rateLimitSeq key limit windowMs ts ((rateLimit key limit windowMs t buckets).2)).2)

theorem rateLimit_fresh (key : String) (limit : Nat) (windowMs now : Int)
    (buckets : String → Option Bucket) (h : buckets key = none) (hW : 0 ≤ windowMs) :
    rateLimit key limit windowMs now buckets =
      (⟨decide (1 ≤ limit), limit - 1, now + windowMs⟩,
        fun k => if k = key then some ⟨1, now + windowMs⟩ else buckets k) := by
  rw [rateLimit, h]
  simp only [Option.getD]
  rw [if_neg (show ¬(Bucket.mk 0 (now + windowMs)).resetAt < now by
    show ¬now + windowMs < now
    omega)]

theorem rateLimit_inwindow (key : String) (limit : Nat) (windowMs now : Int)
    (buckets : String → Option Bucket) (c0 : Nat) (r0 : Int)
    (h : buckets key = some ⟨c0, r0⟩) (ht : ¬r0 < now) :
    rateLimit key limit windowMs now buckets =
      (⟨decide (c0 + 1 ≤ limit), limit - (c0 + 1), r0⟩,
        fun k => if k = key then some ⟨c0 + 1, r0⟩ else buckets k) := by
  rw [rateLimit, h]
  simp only [Option.getD]
  rw [if_neg (by exact ht : ¬(Bucket.mk c0 r0).resetAt < now)]

theorem rateLimit_expired (key : String) (limit : Nat) (windowMs now : Int)
    (buckets : String → Option Bucket) (c0 : Nat) (r0 : Int)
    (h : buckets key = some ⟨c0, r0⟩) (ht : r0 < now) :
    rateLimit key limit windowMs now buckets =
      (⟨decide (1 ≤ limit), limit - 1, now + windowMs⟩,
        fun k => if k = key then some ⟨1, now + windowMs⟩ else buckets k) := by
  rw [rateLimit, h]
  simp only [Option.getD]
  rw [if_pos (by exact ht : (Bucket.mk c0 r0).resetAt < now)]

theorem rateLimitSeq_inwindow (key : String) (limit : Nat) (W r0 : Int) :
    ∀ (ts : List Int) (c0 : Nat) (buckets : String → Option Bucket),
    buckets key = some ⟨c0, r0⟩ → (∀ t ∈ ts, ¬(r0 < t)) →
    ((rateLimitSeq key limit W ts buckets).2 key = some ⟨c0 + ts.length, r0⟩ ∧
      ∀ j, ∀ hj : j < (rateLimitSeq key limit W ts buckets).1.length,
        (rateLimitSeq key limit W ts buckets).1[j] =
          ⟨decide (c0 + j + 1 ≤ limit), limit - (c0 + j + 1), r0⟩)
  | [], c0, buckets => by
    intro h hts
    refine ⟨by rw [rateLimitSeq]; simpa using h, ?_⟩
    intro j hj
    rw [rateLimitSeq] at hj
    exact absurd hj (by simp)
  | t :: ts, c0, buckets => by
    intro h hts
    have hcall := rateLimit_inwindow key limit W t buckets c0 r0 h
      (hts t (List.mem_cons_self t ts))
    have hnext : (fun k => if k = key then some (Bucket.mk (c0 + 1) r0) else buckets k)
        key = some ⟨c0 + 1, r0⟩ := by simp
    have ih := rateLimitSeq_inwindow key limit W r0 ts (c0 + 1)
      (fun k => if k = key then some ⟨c0 + 1, r0⟩ else buckets k) hnext
      (fun u hu => hts u (List.mem_cons_of_mem t hu))
    rw [rateLimitSeq, hcall]
    refine ⟨?_, ?_⟩
    · have h2 := ih.1
      have h3 : c0 + 1 + ts.length = c0 + (t :: ts).length := by
        rw [List.length_cons]
        omega
      rw [h3] at h2
      exact h2
    · intro j hj
      cases j with
      | zero => simp
      | succ j =>
        simp only [List.getElem_cons_succ]
        have hj2 : j < (rateLimitSeq key limit W ts
            (fun k => if k = key then some (Bucket.mk (c0 + 1) r0) else buckets k)).1.length := by
          simp only [List.length_cons] at hj
          omega
        have h4 := ih.2 j hj2
        rw [h4]
        have h5 : c0 + 1 + j + 1 = c0 + (j + 1) + 1 := by omega
        rw [h5]

/-- C5: every `rateLimit` call increments the key's stored count by 1
unconditionally — fresh keys start a bucket at count 1, in-window calls go
from `c0` to `c0 + 1` even when rejected, and expired buckets restart at 1
with `resetAt = now + windowMs` — returning `allowed = (count ≤ limit)`,
`remaining = max(0, limit − count)` and the bucket's `resetAt`; hence for a
fresh key the `j`-th call within the window returns
`allowed = (j + 1 ≤ limit)`: the first `limit` calls pass and the
`(limit+1)`-th fails, while the first call strictly after `resetAt` restarts
the count at 1. -/
theorem C5_rateLimit_counting :
    (∀ (key : String) (limit : Nat) (windowMs now : Int)
        (buckets : String → Option Bucket) (c0 : Nat) (r0 : Int),
      buckets key = some ⟨c0, r0⟩ → ¬r0 < now →
      rateLimit key limit windowMs now buckets =
        (⟨decide (c0 + 1 ≤ limit), limit - (c0 + 1), r0⟩,
          fun k => if k = key then some ⟨c0 + 1, r0⟩ else buckets k)) ∧
    (∀ (key : String) (limit : Nat) (windowMs now : Int)
        (buckets : String → Option Bucket),
      buckets key = none → 0 ≤ windowMs →
      rateLimit key limit windowMs now buckets =
        (⟨decide (1 ≤ limit), limit - 1, now + windowMs⟩,
          fun k => if k = key then some ⟨1, now + windowMs⟩ else buckets k)) ∧
    (∀ (key : String) (limit : Nat) (windowMs now : Int)
        (buckets : String → Option Bucket) (c0 : Nat) (r0 : Int),
      buckets key = some ⟨c0, r0⟩ → r0 < now →
      rateLimit key limit windowMs now buckets =
        (⟨decide (1 ≤ limit), limit - 1, now + windowMs⟩,
          fun k => if k = key then some ⟨1, now + windowMs⟩ else buckets k)) ∧
    (∀ (key : String) (limit : Nat) (W t0 : Int) (ts : List Int)
        (buckets : String → Option Bucket),
      buckets key = none → 0 ≤ W → (∀ t ∈ ts, ¬(t0 + W < t)) →
      ∀ j, ∀ hj : j < (rateLimitSeq key limit W (t0 :: ts) buckets).1.length,
        (rateLimitSeq key limit W (t0 :: ts) buckets).1[j] =
          ⟨decide (j + 1 ≤ limit), limit - (j + 1), t0 + W⟩) := by
  refine ⟨fun key limit wm now buckets c0 r0 h ht =>
      rateLimit_inwindow key limit wm now buckets c0 r0 h ht,
    fun key limit wm now buckets h hW => rateLimit_fresh key limit wm now buckets h hW,
    fun key limit wm now buckets c0 r0 h ht =>
      rateLimit_expired key limit wm now buckets c0 r0 h ht,
    ?_⟩
  intro key limit W t0 ts buckets h hW hts j hj
  have hcall := rateLimit_fresh key limit W t0 buckets h hW
  have hseq := rateLimitSeq_inwindow key limit W (t0 + W) ts 1
    (fun k => if k = key then some ⟨1, t0 + W⟩ else buckets k) (by simp) hts
  simp only [rateLimitSeq, hcall] at hj ⊢
  cases j with
  | zero => simp
  | succ j =>
    simp only [List.getElem_cons_succ]
    simp only [List.length_cons] at hj
    have hj2 : j < (rateLimitSeq key limit W ts
        (fun k => if k = key then some (Bucket.mk 1 (t0 + W)) else buckets k)).1.length := by
      omega
    rw [hseq.2 j hj2, show 1 + j + 1 = j + 1 + 1 from by omega]

theorem C5_rateLimit_counting_witness :
    (∃ hj : 2 < (rateLimitSeq "k" 2 10 [0, 3, 5] (fun _ => none)).1.length,
      (rateLimitSeq "k" 2 10 [0, 3, 5] (fun _ => none)).1[2] =
        ⟨false, 0, 10⟩) ∧
    (rateLimit "k" 2 10 11 (fun k => if k = "k" then some ⟨3, 10⟩ else none)).1 =
      ⟨true, 1, 21⟩ :=
  ⟨⟨by decide,
    (C5_rateLimit_counting.2.2.2 "k" 2 10 0 [3, 5] (fun _ => none) rfl (by decide)
      (by decide) 2 (by decide)).trans (by decide)⟩,
    (congrArg Prod.fst (C5_rateLimit_counting.2.2.1 "k" 2 10 11
      (fun k => if k = "k" then some ⟨3, 10⟩ else none) 3 10 rfl
      (by decide))).trans (by decide)⟩

/-- C10: a `rateLimit` call for one key leaves the bucket stored under every
other key (its count and its resetAt) unchanged. -/
theorem C10_rateLimit_frame (key other : String) (limit : Nat) (windowMs now : Int)
    (buckets : String → Option Bucket) (h : other ≠ key) :
    (rateLimit key limit windowMs now buckets).2 other = buckets other := by
  simp only [rateLimit]
  rw [if_neg h]

theorem C10_rateLimit_frame_witness :
    (rateLimit "run:1.2.3.4" 30 300000 99 (fun k =>
      if k = "gen:5.6.7.8" then some ⟨7, 120⟩ else none)).2 "gen:5.6.7.8" =
      some ⟨7, 120⟩ :=
  (C10_rateLimit_frame "run:1.2.3.4" "gen:5.6.7.8" 30 300000 99
    (fun k => if k = "gen:5.6.7.8" then some ⟨7, 120⟩ else none) (by decide)).trans rfl

/-! ## `validateDocsUrl` (`src/app/lib/limiter.js`)

The input is an arbitrary JSON value (`none` = absent/undefined); only a
`.str` passes the `typeof docsUrl !== "string"` check.  `new URL(trimmed)`
is the WHATWG URL parser of the platform, modelled by a parameter
`urlProtocol : String → Option String` returning the parsed URL's
(lower-cased, colon-terminated) `protocol` when parsing succeeds.
`urlProtocolModel` instantiates it with the scheme grammar
`ALPHA (ALPHA / DIGIT / "+" / "-" / ".")* ":"` — enough for every string
the claims exercise. -/

inductive DocsUrlResult where
  | err (msg : String)
  | ok (value : String)
  deriving DecidableEq, Repr

/-- Model of `validateDocsUrl`. -/
def validateDocsUrl (urlProtocol : String → Option String)
    (docsUrl : Option JVal) : DocsUrlResult :=
  match docsUrl with
  | some (.str s) =>
    if jsTrim s = "" then .err "docsUrl is required"
    else if 600 < (jsTrim s).length then .err "docsUrl is too long"
    else
      match urlProtocol (jsTrim s) with
      | none => .err "docsUrl must be a valid URL"
      | some protocol =>
        if protocol = "http:" ∨ protocol = "https:" then .ok (jsTrim s)
        else .err "docsUrl must start with http:// or https://"
  | _ => .err "docsUrl must be a string"

/-- Scheme-prefix model of `new URL(s).protocol`. -/
def urlProtocolModel (s : String) : Option String :=
  match s.data with
  | [] => none
  | c :: rest =>
    if c.isAlpha then
      match rest.dropWhile (fun d => d.isAlphanum || d = '+' || d = '-' || d = '.') with
      | ':' :: _ =>
        some (String.mk (((c :: rest.takeWhile (fun d =>
          d.isAlphanum || d = '+' || d = '-' || d = '.')).map Char.toLower) ++ [':']))
      | _ => none
    else none

example : urlProtocolModel "https://example.com/docs" = some "https:" := rfl
example : urlProtocolModel "ftp://x.com" = some "ftp:" := rfl
example : urlProtocolModel "not a url" = none := rfl

/-- C6: `validateDocsUrl` applies its rules in order with the first failure
winning, returning exactly the specified error string at each rule — non-string
input, blank after trimming, trimmed length over 600, URL parse failure,
scheme other than `http:`/`https:` — and on success returns `ok` with the
trimmed string. -/
theorem C6_validateDocsUrl_rules (urlProtocol : String → Option String) :
    (∀ v : Option JVal, (∀ s, v ≠ some (.str s)) →
      validateDocsUrl urlProtocol v = .err "docsUrl must be a string") ∧
    (∀ s, jsTrim s = "" →
      validateDocsUrl urlProtocol (some (.str s)) = .err "docsUrl is required") ∧
    (∀ s, jsTrim s ≠ "" → 600 < (jsTrim s).length →
      validateDocsUrl urlProtocol (some (.str s)) = .err "docsUrl is too long") ∧
    (∀ s, jsTrim s ≠ "" → (jsTrim s).length ≤ 600 → urlProtocol (jsTrim s) = none →
      validateDocsUrl urlProtocol (some (.str s)) = .err "docsUrl must be a valid URL") ∧
    (∀ s p, jsTrim s ≠ "" → (jsTrim s).length ≤ 600 → urlProtocol (jsTrim s) = some p →
      p ≠ "http:" → p ≠ "https:" →
      validateDocsUrl urlProtocol (some (.str s)) =
        .err "docsUrl must start with http:// or https://") ∧
    (∀ s p, jsTrim s ≠ "" → (jsTrim s).length ≤ 600 → urlProtocol (jsTrim s) = some p →
      (p = "http:" ∨ p = "https:") →
      validateDocsUrl urlProtocol (some (.str s)) = .ok (jsTrim s)) := by
  refine ⟨?_, ?_, ?_, ?_, ?_, ?_⟩
  · intro v hv
    match v with
    | none => rfl
    | some .null => rfl
    | some (.bool b) => rfl
    | some (.num c) => rfl
    | some (.str s) => exact absurd rfl (hv s)
    | some (.arr xs) => rfl
    | some (.obj kvs) => rfl
  · intro s h
    rw [validateDocsUrl, if_pos h]
  · intro s h1 h2
    rw [validateDocsUrl, if_neg h1, if_pos h2]
  · intro s h1 h2 h3
    rw [validateDocsUrl, if_neg h1, if_neg (by omega), h3]
  · intro s p h1 h2 h3 h4 h5
    rw [validateDocsUrl, if_neg h1, if_neg (by omega), h3]
    show (if p = "http:" ∨ p = "https:" then DocsUrlResult.ok (jsTrim s)
      else DocsUrlResult.err "docsUrl must start with http:// or https://") = _
    rw [if_neg (by simp [h4, h5])]
  · intro s p h1 h2 h3 h4
    rw [validateDocsUrl, if_neg h1, if_neg (by omega), h3]
    show (if p = "http:" ∨ p = "https:" then DocsUrlResult.ok (jsTrim s)
      else DocsUrlResult.err "docsUrl must start with http:// or https://") = _
    rw [if_pos h4]

theorem C6_validateDocsUrl_rules_witness :
    validateDocsUrl urlProtocolModel (some (.num "123")) =
      .err "docsUrl must be a string" ∧
    validateDocsUrl urlProtocolModel (some (.str "")) = .err "docsUrl is required" ∧
    validateDocsUrl urlProtocolModel (some (.str "not a url")) =
      .err "docsUrl must be a valid URL" ∧
    validateDocsUrl urlProtocolModel (some (.str "ftp://x.com")) =
      .err "docsUrl must start with http:// or https://" ∧
    validateDocsUrl urlProtocolModel (some (.str " https://example.com/docs ")) =
      .ok "https://example.com/docs" :=
  ⟨(C6_validateDocsUrl_rules urlProtocolModel).1 (some (.num "123"))
      (fun s h => JVal.noConfusion (Option.some.inj h)),
    (C6_validateDocsUrl_rules urlProtocolModel).2.1 "" rfl,
    (C6_validateDocsUrl_rules urlProtocolModel).2.2.2.1 "not a url" (by decide)
      (by decide) rfl,
    (C6_validateDocsUrl_rules urlProtocolModel).2.2.2.2.1 "ftp://x.com" "ftp:"
      (by decide) (by decide) rfl (by decide) (by decide),
    ((C6_validateDocsUrl_rules urlProtocolModel).2.2.2.2.2 " https://example.com/docs "
      "https:" (by decide) (by decide) rfl (Or.inr rfl)).trans rfl⟩

/-! ## Question generation endpoint (`src/app/api/generate-questions/route.js`)

Model of the per-question normalisation applied to the model's `questions`
array.  A question object's fields are `none` when nullish; `hints`,
`testCases` and `hiddenTestCases` are `none` when the value fails
`Array.isArray`; a non-object array element behaves as `{}` (property
access yields `undefined`), so it is the all-`none` record. -/

/-- JavaScript truthiness of a JSON value (`0` is the canonical decimal
rendering of the number zero). -/
def jsFalsy : JVal → Bool
  | .null => true
  | .bool b => !b
  | .num c => c = "0"
  | .str s => s = ""
  | .arr _ => false
  | .obj _ => false

/-- Model of `coerceString(val, fallback)` (nullish check, then `String`). -/
def coerceString (val : Option JVal) (fallback : String) : String :=
  match val with
  | none => fallback
  | some v => jsToString v

/-- Model of `String(val || "")` (falsy values coerce to `""`). -/
def stringOrEmpty (val : Option JVal) : String :=
  match val with
  | some v => if jsFalsy v then "" else jsToString v
  | none => ""

/-- Model of `coerceDifficulty(val, fallback)`. -/
def coerceDifficulty (val : Option JVal) (fallback : String) : String :=
  if jsTrim (jsToLower (stringOrEmpty val)) = "beginner" ∨
      jsTrim (jsToLower (stringOrEmpty val)) = "intermediate" ∨
      jsTrim (jsToLower (stringOrEmpty val)) = "advanced" then
    jsTrim (jsToLower (stringOrEmpty val))
  else fallback

/-- The fixed filler hints. -/
def hintFiller : List String :=
  ["Start by carefully matching the input JSON shape to the variables you need.",
   "Write the rule as a small helper step (even mentally), then apply it to all required parts.",
   "Test your logic on the provided example by hand and confirm it matches the expected output."]

/-- Model of `ensureExactlyThreeHints`: keep the first three truthy hints
(stringified); the `while` loop then pushes `filler[0], filler[1], …` until
the length is 3, i.e. appends the first `3 - trimmed.length` fillers. -/
def ensureExactlyThreeHints (hints : Option (List JVal)) : List String :=
  ((match hints with
    | some xs => (xs.filter (fun v => !jsFalsy v)).map jsToString
    | none => []).take 3) ++
    hintFiller.take (3 - ((match hints with
      | some xs => (xs.filter (fun v => !jsFalsy v)).map jsToString
      | none => []).take 3).length)

/-- The four properties `sanitizeCase` reads from a raw test case. -/
structure CaseIn where
  name : Option JVal
  input : Option JVal
  expectedOutput : Option JVal
  explanation : Option JVal

/-- A sanitized test case: exactly four string fields. -/
structure CaseOut where
  name : String
  input : String
  expectedOutput : String
  explanation : String
  deriving DecidableEq, Repr

/-- Model of `sanitizeCase(tc, fallbackName)`. -/
def sanitizeCase (tc : CaseIn) (fallbackName : String) : CaseOut :=
  ⟨coerceString tc.name fallbackName, coerceString tc.input "null",
    coerceString tc.expectedOutput "null", coerceString tc.explanation ""⟩

/-- Model of `starterTemplate(lang)`. -/
def starterTemplate (lang : String) : String :=
  if lang = "python" then
    "def solve(input):\n    \"\"\"\n    input: parsed JSON value (number/string/list/dict/etc)\n    return: value that matches expectedOutput\n    \"\"\"\n    # TODO: implement\n    return None\n"
  else if lang = "typescript" then
    "export function solve(input: unknown): unknown \x7b\n  // input: parsed JSON value\n  // return: value that matches expectedOutput\n  return null;\n\x7d\n"
  else
    "export function solve(input) \x7b\n  // input: parsed JSON value\n  // return: value that matches expectedOutput\n  return null;\n\x7d\n"

/-- Model of `starterLooksOk(starterCode, lang)`. -/
def starterLooksOk (starterCode : Option JVal) (lang : String) : Bool :=
  if lang = "python" then hasSub (stringOrEmpty starterCode) "def solve"
  else hasSub (stringOrEmpty starterCode) "export function solve" ||
    hasSub (stringOrEmpty starterCode) "function solve"

/-- The `while (len < minLen) push(mk(len + 1))` padding loops. -/
def padTo (minLen : Nat) (mk : Nat → CaseOut) (cs : List CaseOut) : List CaseOut :=
  if cs.length < minLen then padTo minLen mk (cs ++ [mk (cs.length + 1)]) else cs
termination_by minLen - cs.length
decreasing_by
  simp only [List.length_append, List.length_cons, List.length_nil]
  omega

/-- The synthetic visible sanity case pushed by the padding loop (after
`sanitizeCase`). -/
def fillerVisible (n : Nat) : CaseOut :=
  ⟨"Case " ++ toString n, "null", "null", "Basic sanity check."⟩

/-- The synthetic hidden sanity case pushed by the padding loop. -/
def fillerHidden (n : Nat) : CaseOut :=
  ⟨"Hidden " ++ toString n, "null", "null", "Hidden sanity check / edge coverage."⟩

/-- The fields of a raw question object the normalisation reads. -/
structure QIn where
  title : Option JVal
  concept : Option JVal
  question : Option JVal
  instructions : Option JVal
  difficulty : Option JVal
  starterCode : Option JVal
  hints : Option (List JVal)
  testCases : Option (List CaseIn)
  hiddenTestCases : Option (List CaseIn)

/-- A normalised question as returned to the client. -/
structure QOut where
  functionName : String
  title : String
  concept : String
  question : String
  instructions : String
  difficulty : String
  starterCode : String
  hints : List String
  testCases : List CaseOut
  hiddenTestCases : List CaseOut

/-- Normalisation of one question (`payload.questions.slice(0,5).map` body). -/
def normalizeQuestion (lang : String) (idx : Nat) (q : QIn) : QOut :=
  ⟨"solve",
    coerceString q.title ("Challenge " ++ toString (idx + 1)),
    coerceString q.concept "You will learn how to apply the documented concept.",
    coerceString q.question "",
    coerceString q.instructions "",
    coerceDifficulty q.difficulty "beginner",
    (if !starterLooksOk q.starterCode lang then starterTemplate lang
     else coerceString q.starterCode (starterTemplate lang)),
    ensureExactlyThreeHints q.hints,
    padTo 2 fillerVisible (((q.testCases.getD []).take 3).enum.map
      (fun p => sanitizeCase p.2 ("Case " ++ toString (p.1 + 1)))),
    padTo 3 fillerHidden (((q.hiddenTestCases.getD []).take 6).enum.map
      (fun p => sanitizeCase p.2 ("Hidden " ++ toString (p.1 + 1))))⟩

/-- `payload.questions = payload.questions.slice(0, 5).map(...)`. -/
def normalizeQuestions (lang : String) (qs : List QIn) : List QOut :=
  (qs.take 5).enum.map (fun p => normalizeQuestion lang p.1 p.2)

theorem padTo_length_fuel (m : Nat) (mk : Nat → CaseOut) :
    ∀ (k : Nat) (cs : List CaseOut), m - cs.length ≤ k →
    (padTo m mk cs).length = max m cs.length
  | 0, cs, h => by
    rw [padTo]
    rw [if_neg (by omega)]
    omega
  | k + 1, cs, h => by
    rw [padTo]
    by_cases hc : cs.length < m
    · rw [if_pos hc]
      have h2 := padTo_length_fuel m mk k (cs ++ [mk (cs.length + 1)])
        (by simp only [List.length_append, List.length_cons, List.length_nil]; omega)
      rw [h2]
      simp only [List.length_append, List.length_cons, List.length_nil]
      omega
    · rw [if_neg hc]
      omega

theorem padTo_length (m : Nat) (mk : Nat → CaseOut) (cs : List CaseOut) :
    (padTo m mk cs).length = max m cs.length :=
  padTo_length_fuel m mk (m - cs.length) cs le_rfl

theorem ensureExactlyThreeHints_length (hints : Option (List JVal)) :
    (ensureExactlyThreeHints hints).length = 3 := by
  rw [ensureExactlyThreeHints.eq_def]
  simp only [List.length_append, List.length_take,
    show hintFiller.length = 3 from rfl]
  omega

/-- C7: every question produced by the generation endpoint's normalisation
has `functionName = "solve"`; exactly 3 hints — the model's first up-to-3
truthy hints, padded with the fixed fillers when fewer; a difficulty among
beginner/intermediate/advanced (defaulting to beginner); 2–3 visible and
3–6 hidden test cases, each a record of exactly the four string fields
`name`/`input`/`expectedOutput`/`explanation` defaulting to the fallback
name, `"null"`, `"null"`, `""`; and a starter code replaced by the
per-language template whenever the provided one lacks the language's marker
substring. -/
theorem C7_normalized_questions :
    (∀ (lang : String) (qs : List QIn), ∀ qo ∈ normalizeQuestions lang qs,
      ∃ idx q, qo = normalizeQuestion lang idx q) ∧
    (∀ (lang : String) (idx : Nat) (q : QIn),
      (normalizeQuestion lang idx q).functionName = "solve" ∧
      (normalizeQuestion lang idx q).hints.length = 3 ∧
      (∀ xs, q.hints = some xs → 3 ≤ (xs.filter (fun v => !jsFalsy v)).length →
        (normalizeQuestion lang idx q).hints =
          ((xs.filter (fun v => !jsFalsy v)).map jsToString).take 3) ∧
      (∀ xs, q.hints = some xs → (xs.filter (fun v => !jsFalsy v)).length < 3 →
        (normalizeQuestion lang idx q).hints =
          (xs.filter (fun v => !jsFalsy v)).map jsToString ++
            hintFiller.take (3 - (xs.filter (fun v => !jsFalsy v)).length)) ∧
      ((normalizeQuestion lang idx q).difficulty = "beginner" ∨
        (normalizeQuestion lang idx q).difficulty = "intermediate" ∨
        (normalizeQuestion lang idx q).difficulty = "advanced") ∧
      (2 ≤ (normalizeQuestion lang idx q).testCases.length ∧
        (normalizeQuestion lang idx q).testCases.length ≤ 3) ∧
      (3 ≤ (normalizeQuestion lang idx q).hiddenTestCases.length ∧
        (normalizeQuestion lang idx q).hiddenTestCases.length ≤ 6) ∧
      (starterLooksOk q.starterCode lang = false →
        (normalizeQuestion lang idx q).starterCode = starterTemplate lang) ∧
      (starterLooksOk q.starterCode lang = true →
        (normalizeQuestion lang idx q).starterCode =
          coerceString q.starterCode (starterTemplate lang))) ∧
    (∀ fb, sanitizeCase ⟨none, none, none, none⟩ fb = ⟨fb, "null", "null", ""⟩) := by
  refine ⟨?_, ?_, fun fb => rfl⟩
  · intro lang qs qo hqo
    rw [normalizeQuestions, List.mem_map] at hqo
    obtain ⟨p, hp, hqo⟩ := hqo
    exact ⟨p.1, p.2, hqo.symm⟩
  · intro lang idx q
    refine ⟨rfl, ensureExactlyThreeHints_length q.hints, ?_, ?_, ?_, ?_, ?_, ?_, ?_⟩
    · intro xs hxs h3
      show ensureExactlyThreeHints q.hints = _
      rw [ensureExactlyThreeHints.eq_def, hxs]
      have hlen : (((xs.filter (fun v => !jsFalsy v)).map jsToString).take 3).length
          = 3 := by
        simp only [List.length_take, List.length_map]
        omega
      rw [hlen]
      simp
    · intro xs hxs h3
      show ensureExactlyThreeHints q.hints = _
      rw [ensureExactlyThreeHints.eq_def, hxs]
      have htake : ((xs.filter (fun v => !jsFalsy v)).map jsToString).take 3
          = (xs.filter (fun v => !jsFalsy v)).map jsToString := by
        apply List.take_of_length_le
        simp only [List.length_map]
        omega
      rw [htake]
      simp only [List.length_map]
    · show (coerceDifficulty q.difficulty "beginner" = "beginner" ∨
        coerceDifficulty q.difficulty "beginner" = "intermediate" ∨
        coerceDifficulty q.difficulty "beginner" = "advanced")
      rw [coerceDifficulty]
      split
      · next h => exact h
      · exact Or.inl rfl
    · show 2 ≤ (padTo 2 fillerVisible _).length ∧ (padTo 2 fillerVisible _).length ≤ 3
      rw [padTo_length]
      constructor
      · omega
      · simp only [List.length_map, List.enum_length, List.length_take]
        omega
    · show 3 ≤ (padTo 3 fillerHidden _).length ∧ (padTo 3 fillerHidden _).length ≤ 6
      rw [padTo_length]
      constructor
      · omega
      · simp only [List.length_map, List.enum_length, List.length_take]
        omega
    · intro h
      show (if !starterLooksOk q.starterCode lang then starterTemplate lang
        else coerceString q.starterCode (starterTemplate lang)) = starterTemplate lang
      rw [h]
      rfl
    · intro h
      show (if !starterLooksOk q.starterCode lang then starterTemplate lang
        else coerceString q.starterCode (starterTemplate lang)) =
          coerceString q.starterCode (starterTemplate lang)
      rw [h]
      rfl

theorem C7_normalized_questions_witness :
    (normalizeQuestion "python" 0
      ⟨none, none, none, none, some (.str "HARD"), some (.str "function solve(x)"),
        some [.str "h1"], some [], none⟩).functionName = "solve" ∧
    (normalizeQuestion "python" 0
      ⟨none, none, none, none, some (.str "HARD"), some (.str "function solve(x)"),
        some [.str "h1"], some [], none⟩).starterCode = starterTemplate "python" ∧
    (normalizeQuestion "python" 0
      ⟨none, none, none, none, some (.str "HARD"), some (.str "function solve(x)"),
        some [.str "h1"], some [], none⟩).hints =
      ["h1", hintFiller[0], hintFiller[1]] := by
  have h := (C7_normalized_questions.2.1 "python" 0
    ⟨none, none, none, none, some (.str "HARD"), some (.str "function solve(x)"),
      some [.str "h1"], some [], none⟩)
  refine ⟨h.1, h.2.2.2.2.2.2.2.1 rfl, ?_⟩
  rw [h.2.2.2.1 [.str "h1"] rfl (by decide)]
  rfl

/-! ## UI editor starter gating (`Home` component) -/

/-- Model of the UI's `defaultStarter(lang)` scaffolds. -/
def defaultStarter (lang : String) : String :=
  if lang = "python" then
    "def solve(input):\n    \"\"\"\n    input: parsed JSON value (number/string/list/dict/etc)\n    return: value that matches expectedOutput\n    \"\"\"\n    # TODO: implement\n    return None\n"
  else if lang = "typescript" then
    "export function solve(input: unknown): unknown \x7b\n  // input: parsed JSON value\n  // return: value that matches expectedOutput\n  return null;\n\x7d\n"
  else
    "export function solve(input) \x7b\n  // input: parsed JSON value\n  // return: value that matches expectedOutput\n  return null;\n\x7d\n"

/-- Model of `starterMatchesLanguage(starterCode, lang)` applied to the
already-string `sc` (the inner `String(starterCode || "")` is the identity
on strings). -/
def starterMatchesLanguage (sc : String) (lang : String) : Bool :=
  if lang = "python" then hasSub sc "def solve"
  else hasSub sc "export function solve" || hasSub sc "function solve"

/-- The effect body run whenever the selected question or language changes:
`const sc = currentQuestion.starterCode || ""; const ok =
starterMatchesLanguage(sc, language); setCode(ok && sc.trim() ? sc :
defaultStarter(language))`. -/
def effectiveEditorCode (starterCode : Option JVal) (language : String) : String :=
  if starterMatchesLanguage (stringOrEmpty starterCode) language &&
      !decide (jsTrim (stringOrEmpty starterCode) = "") then
    stringOrEmpty starterCode
  else defaultStarter language

/-- C8: on exercise or language change the editor text becomes the provided
starter code exactly when it contains the selected language's marker
substring (`def solve` for Python, `export function solve` or
`function solve` otherwise) and is non-blank; in every other case it becomes
the fixed per-language default scaffold. -/
theorem C8_editor_starter_gating :
    (∀ (s : String) (lang : String),
      starterMatchesLanguage s lang = true → jsTrim s ≠ "" →
      effectiveEditorCode (some (.str s)) lang = s) ∧
    (∀ (s : String) (lang : String),
      starterMatchesLanguage s lang = false ∨ jsTrim s = "" →
      effectiveEditorCode (some (.str s)) lang = defaultStarter lang) ∧
    (∀ s : String, starterMatchesLanguage s "python" = hasSub s "def solve") ∧
    (∀ (s : String) (lang : String), lang ≠ "python" →
      starterMatchesLanguage s lang =
        (hasSub s "export function solve" || hasSub s "function solve")) ∧
    (∀ lang : String, effectiveEditorCode none lang = defaultStarter lang) := by
  have hso : ∀ s : String, stringOrEmpty (some (.str s)) = s := by
    intro s
    rw [stringOrEmpty]
    by_cases hs : s = ""
    · rw [if_pos (by rw [jsFalsy, hs]; decide), hs]
    · rw [if_neg (by rw [jsFalsy]; simpa using hs)]
      rfl
  refine ⟨?_, ?_, fun s => by rw [starterMatchesLanguage, if_pos rfl],
    fun s lang h => by rw [starterMatchesLanguage, if_neg h], ?_⟩
  · intro s lang h1 h2
    rw [effectiveEditorCode, hso, if_pos (by simp [h1, h2])]
  · intro s lang h
    rw [effectiveEditorCode, hso]
    rcases h with h | h
    · rw [if_neg (by simp [h])]
    · rw [if_neg (by simp [h])]
  · intro lang
    rw [effectiveEditorCode]
    rw [show stringOrEmpty none = "" from rfl]
    rw [if_neg (fun hc => by simp [show jsTrim "" = "" from rfl] at hc)]

theorem C8_editor_starter_gating_witness :
    effectiveEditorCode
        (some (.str "export function solve(input) \x7b return null; \x7d")) "python" =
      defaultStarter "python" ∧
    effectiveEditorCode (some (.str "def solve(input):\n    return 1\n")) "python" =
      "def solve(input):\n    return 1\n" :=
  ⟨C8_editor_starter_gating.2.1 "export function solve(input) \x7b return null; \x7d"
      "python" (Or.inl rfl),
    C8_editor_starter_gating.1 "def solve(input):\n    return 1\n" "python" rfl
      (by decide)⟩
